import Mathlib

/-! SimpleVector: a shallow embedding of `simple-vector/simple_vector.h`

The class template `SimpleVector<Type>` is embedded as a record holding the
backing buffer, the logical size and the capacity.  Member functions become
functions on that record.

Conventions of the embedding.

* `size_t` values are natural numbers.  A wrap-around of `capacity_ * 2` or
  `size_ + 1` would need a buffer of at least `2^63` slots, which no allocation
  can deliver, so the arithmetic is left unbounded.
* The buffer `data_` is the list of its allocated slots.  Reading or writing a
  slot outside the allocation is undefined behaviour in the source; in the
  embedding such a write is dropped and such a read yields `Type()`.  The
  general theorems about operations that touch the buffer assume `Inv`, under
  which no access leaves the allocation; an evaluation that starts outside
  `Inv` says where a write is lost.
* A member function that can throw returns the pair of its outcome
  (`Except Exn _`) and the state of the object at the moment it returns or the
  exception leaves it.  A constructor that throws produces no object.
* The heap is a parameter `mem : Nat → Bool`: `mem n` tells whether a request
  for `n` slots is granted.
* Iterators are indices relative to `begin()`.
* Moving an element is modelled as copying it (value semantics).  The slots
  moved from by the algorithms are overwritten or discarded before they are
  read again; the slot `Insert(pos, Type&&)` moves from when its argument is an
  element of the vector keeps its value, as for a trivially copyable `Type`.
* A parameter passed by value (`PushBack(Type value)`) is a value of the
  element type.  A parameter passed by reference (`Insert`) is a `ValueRef`: an
  object outside the buffer, or a slot of the vector's own buffer, which is
  read where the source reads it.  Reading a slot of a buffer that was freed,
  or a slot that was never allocated, is undefined behaviour: such a call has
  no result (`none`).
-/

set_option autoImplicit false

universe u

/-- Exceptions that leave the member functions: `std::bad_alloc` raised by the
buffer allocation and `std::out_of_range` raised by `At`. -/
inductive Exn where
  | bad_alloc
  | out_of_range
  deriving DecidableEq, Repr

/-- Token class `ReserveProxyObj`: carries the requested capacity `cap_`. -/
structure ReserveProxyObj where
  cap_ : Nat
  deriving DecidableEq, Repr

/-- Member `ReserveProxyObj::GetCapacity`. -/
def ReserveProxyObj.GetCapacity (obj : ReserveProxyObj) : Nat := obj.cap_

/-- Free function `Reserve(ncap)`: builds the reservation token. -/
def Reserve (ncap : Nat) : ReserveProxyObj := ReserveProxyObj.mk ncap

namespace ArrayPtr

variable {α : Type u} [Inhabited α]

/-- Modelled from the spec: the constructor `ArrayPtr<Type>(n)` of `array_ptr.h`,
which is not among the sources.  It reserves room for exactly `n` elements,
default-initialising each; a request for zero elements owns nothing and asks
nothing of the heap; a request the heap cannot serve fails with an allocation
error. -/
def alloc (mem : Nat → Bool) (n : Nat) : Except Exn (List α) :=
  if n = 0 then Except.ok []
  else if mem n then Except.ok (List.replicate n default)
  else Except.error Exn.bad_alloc

/-- Modelled from the spec: unchecked indexed read `data_[i]` of `ArrayPtr`. -/
def get (buf : List α) (i : Nat) : α := buf.getD i default

/-- Modelled from the spec: unchecked indexed write `data_[i] = x` of `ArrayPtr`. -/
def put (buf : List α) (i : Nat) (x : α) : List α := buf.set i x

end ArrayPtr

/-- Class template `SimpleVector<Type>`: buffer `data_`, logical size `size_`,
capacity `capacity_`. -/
structure SimpleVector (α : Type u) where
  data_ : List α
  size_ : Nat
  capacity_ : Nat
  deriving DecidableEq, Repr

namespace SimpleVector

variable {α : Type u} [Inhabited α]

/-! ### Standard algorithms used by the class, as the loops they run -/

/-- Loop `for (k = 0; k < count; ++k) buf[i + k] = x`. -/
def assign_loop (x : α) : Nat → Nat → List α → List α
  | _, 0, buf => buf
  | i, k + 1, buf => assign_loop x (i + 1) k (ArrayPtr.put buf i x)

/-- Loop of `std::move(first, last, d)` / `std::copy(first, last, d)` from a
source buffer into a different destination buffer:
`while (first != last) *d++ = *first++`. -/
def move_loop (src : List α) : Nat → Nat → Nat → List α → List α
  | _, 0, _, dst => dst
  | first, k + 1, d, dst =>
    move_loop src (first + 1) k (d + 1) (ArrayPtr.put dst d (ArrayPtr.get src first))

/-- Algorithm `std::move(first, last, d)` between two buffers. -/
def std_move (src : List α) (first last : Nat) (dst : List α) (d : Nat) : List α :=
  move_loop src first (last - first) d dst

/-- Algorithm `std::copy(first, last, d)` between two buffers. -/
def std_copy (src : List α) (first last : Nat) (dst : List α) (d : Nat) : List α :=
  move_loop src first (last - first) d dst

/-- Loop of `std::move(first, last, d)` when source and destination are the
same buffer: `while (first != last) *d++ = *first++`. -/
def move_self_loop : Nat → Nat → Nat → List α → List α
  | _, 0, _, buf => buf
  | first, k + 1, d, buf =>
    move_self_loop (first + 1) k (d + 1) (ArrayPtr.put buf d (ArrayPtr.get buf first))

/-- Algorithm `std::move(first, last, d)` inside one buffer. -/
def std_move_self (buf : List α) (first last d : Nat) : List α :=
  move_self_loop first (last - first) d buf

/-- Loop of `std::move_backward` / `std::copy_backward` inside one buffer:
`while (first != last) *(--d_last) = *(--last)`. -/
def backward_loop : Nat → Nat → Nat → List α → List α
  | _, 0, _, buf => buf
  | last, k + 1, d_last, buf =>
    backward_loop (last - 1) k (d_last - 1)
      (ArrayPtr.put buf (d_last - 1) (ArrayPtr.get buf (last - 1)))

/-- Algorithm `std::move_backward(first, last, d_last)` inside one buffer. -/
def std_move_backward (buf : List α) (first last d_last : Nat) : List α :=
  backward_loop last (last - first) d_last buf

/-- Algorithm `std::copy_backward(first, last, d_last)` inside one buffer. -/
def std_copy_backward (buf : List α) (first last d_last : Nat) : List α :=
  backward_loop last (last - first) d_last buf

/-- Loop of the four-iterator `std::equal` once the two lengths agree:
`for (; first1 != last1; ++first1, ++first2) if (!(*first1 == *first2)) return false;`. -/
def equal_loop [BEq α] (a b : List α) : Nat → Nat → Nat → Bool
  | _, _, 0 => true
  | i, j, k + 1 =>
    if !(ArrayPtr.get a i == ArrayPtr.get b j) then false
    else equal_loop a b (i + 1) (j + 1) k

/-- Algorithm `std::equal(first1, last1, first2, last2)` on random-access
ranges: unequal lengths give `false`, otherwise the elements are compared in
order. -/
def std_equal [BEq α] (a : List α) (first1 last1 : Nat) (b : List α)
    (first2 last2 : Nat) : Bool :=
  if last1 - first1 ≠ last2 - first2 then false
  else equal_loop a b first1 first2 (last1 - first1)

/-! ### Constructors -/

/-- Default constructor `SimpleVector()`: no buffer, size and capacity zero. -/
def empty : SimpleVector α := SimpleVector.mk [] 0 0

/-- Constructor `SimpleVector(size_t size)`: allocates `size` slots and sets
each of them to `Type()`. -/
def of_size (mem : Nat → Bool) (size : Nat) : Except Exn (SimpleVector α) :=
  match ArrayPtr.alloc mem size with
  | Except.error e => Except.error e
  | Except.ok buf => Except.ok (SimpleVector.mk (assign_loop default 0 size buf) size size)

/-- Constructor `SimpleVector(size_t size, const Type& value)`. -/
def of_size_value (mem : Nat → Bool) (size : Nat) (value : α) :
    Except Exn (SimpleVector α) :=
  match ArrayPtr.alloc mem size with
  | Except.error e => Except.error e
  | Except.ok buf => Except.ok (SimpleVector.mk (assign_loop value 0 size buf) size size)

/-- Loop of the initializer-list constructor: `data_[size_++] = *it`. -/
def init_loop : List α → Nat → List α → List α × Nat
  | [], size, buf => (buf, size)
  | x :: rest, size, buf => init_loop rest (size + 1) (ArrayPtr.put buf size x)

/-- Constructor `SimpleVector(std::initializer_list<Type> init)`. -/
def of_init (mem : Nat → Bool) (init : List α) : Except Exn (SimpleVector α) :=
  match ArrayPtr.alloc mem init.length with
  | Except.error e => Except.error e
  | Except.ok buf =>
    let r := init_loop init 0 buf
    Except.ok (SimpleVector.mk r.1 r.2 r.2)

/-- Copy constructor `SimpleVector(const SimpleVector& other)`. -/
def copy (mem : Nat → Bool) (other : SimpleVector α) : Except Exn (SimpleVector α) :=
  match ArrayPtr.alloc mem other.capacity_ with
  | Except.error e => Except.error e
  | Except.ok buf =>
    Except.ok (SimpleVector.mk (std_copy other.data_ 0 other.size_ buf 0)
      other.size_ other.capacity_)

/-- Move constructor `SimpleVector(SimpleVector&& other)`: the pair of the new
object and the state left in `other`. -/
def move_ctor (other : SimpleVector α) : SimpleVector α × SimpleVector α :=
  (SimpleVector.mk other.data_ other.size_ other.capacity_, SimpleVector.mk [] 0 0)

/-! ### Member functions -/

/-- Member `swap(other)`: the pair of the new states of `*this` and `other`. -/
def swap (self other : SimpleVector α) : SimpleVector α × SimpleVector α :=
  (SimpleVector.mk other.data_ other.size_ other.capacity_,
   SimpleVector.mk self.data_ self.size_ self.capacity_)

/-- Move assignment `operator=(SimpleVector&& other)` for two distinct objects:
the pair of the new states of `*this` and `other`. -/
def assign_move (self other : SimpleVector α) : SimpleVector α × SimpleVector α :=
  let swapped : SimpleVector α := { other with data_ := self.data_ }
  let released : SimpleVector α := { swapped with data_ := [] }
  (SimpleVector.mk other.data_ other.size_ other.capacity_,
   { released with size_ := 0, capacity_ := 0 })

/-- Move assignment when `this == &other`: returns at once. -/
def assign_move_self (self : SimpleVector α) : SimpleVector α := self

/-- Copy assignment `operator=(const SimpleVector& other)` for two distinct
objects: outcome and new state of `*this` (`other` is not written). -/
def assign_copy (mem : Nat → Bool) (self other : SimpleVector α) :
    Except Exn Unit × SimpleVector α :=
  match copy mem other with
  | Except.error e => (Except.error e, self)
  | Except.ok tmp => (Except.ok (), (swap self tmp).1)

/-- Copy assignment when `&other == this`: returns at once. -/
def assign_copy_self (self : SimpleVector α) : SimpleVector α := self

/-- Member `Reserve(ncap)`. -/
def Reserve (mem : Nat → Bool) (ncap : Nat) (v : SimpleVector α) :
    Except Exn Unit × SimpleVector α :=
  if ncap > v.capacity_ then
    let v1 : SimpleVector α := { v with capacity_ := ncap }
    match of_size mem v1.capacity_ with
    | Except.error e => (Except.error e, v1)
    | Except.ok tmp =>
      let moved := std_move v1.data_ 0 v1.size_ tmp.data_ 0
      (Except.ok (), { v1 with data_ := moved })
  else (Except.ok (), v)

/-- Constructor `SimpleVector(ReserveProxyObj obj)`. -/
def of_reserve (mem : Nat → Bool) (obj : ReserveProxyObj) : Except Exn (SimpleVector α) :=
  match Reserve mem obj.GetCapacity (empty : SimpleVector α) with
  | (Except.error e, _) => Except.error e
  | (Except.ok _, v) => Except.ok v

/-- Member `Resize(new_size)`. -/
def Resize (mem : Nat → Bool) (new_size : Nat) (v : SimpleVector α) :
    Except Exn Unit × SimpleVector α :=
  if new_size ≤ v.size_ then (Except.ok (), { v with size_ := new_size })
  else if new_size ≤ v.capacity_ then
    (Except.ok (),
      { v with data_ := assign_loop default v.size_ (new_size - v.size_) v.data_,
               size_ := new_size })
  else
    let v1 : SimpleVector α := { v with capacity_ := max new_size (v.capacity_ * 2) }
    match of_size mem v1.capacity_ with
    | Except.error e => (Except.error e, v1)
    | Except.ok tmp =>
      let moved := std_move v1.data_ 0 v1.size_ tmp.data_ 0
      (Except.ok (), { v1 with data_ := moved, size_ := new_size })

/-- Member `PushBack(value)`. -/
def PushBack (mem : Nat → Bool) (value : α) (v : SimpleVector α) :
    Except Exn Unit × SimpleVector α :=
  if v.capacity_ = 0 then
    match Resize mem 1 v with
    | (Except.error e, v1) => (Except.error e, v1)
    | (Except.ok _, v1) =>
      (Except.ok (), { v1 with data_ := ArrayPtr.put v1.data_ (v1.size_ - 1) value })
  else if v.size_ + 1 ≤ v.capacity_ then
    (Except.ok (), { v with data_ := ArrayPtr.put v.data_ v.size_ value, size_ := v.size_ + 1 })
  else
    let prev_size := v.size_
    match Resize mem (v.capacity_ * 2) v with
    | (Except.error e, v1) => (Except.error e, v1)
    | (Except.ok _, v1) =>
      (Except.ok (), { v1 with data_ := ArrayPtr.put v1.data_ prev_size value,
                               size_ := prev_size + 1 })

/-- Member `PopBack()`. -/
def PopBack (v : SimpleVector α) : SimpleVector α :=
  if v.size_ = 0 then v else { v with size_ := v.size_ - 1 }

/-- What a reference parameter `value` is bound to: an object outside the
buffer of the vector, or the slot `data_[j]` of the vector itself, as in
`v.Insert(pos, v[j])`. -/
inductive ValueRef (α : Type u) where
  | outside (x : α)
  | slot (j : Nat)

/-- Reads through the reference.  `alive` tells whether the buffer the vector
held when the call was made still exists, and `buf` is what that buffer holds
now.  A slot of a freed buffer and a slot outside the allocation cannot be
read: undefined behaviour, `none`. -/
def ValueRef.read (alive : Bool) (buf : List α) : ValueRef α → Option α
  | ValueRef.outside x => some x
  | ValueRef.slot j => if alive then buf[j]? else none

/-- Tells whether `Resize(new_size)` takes its growth branch, in which the
buffer is replaced and the old one is freed when `Resize` returns. -/
def Resize_reallocates (new_size : Nat) (v : SimpleVector α) : Bool :=
  !(decide (new_size ≤ v.size_)) && !(decide (new_size ≤ v.capacity_))

/-- Member `Insert(ConstIterator pos, const Type& value)`, with `pos` given as
the index `pos - begin()`; the returned iterator is given as an index too.
The reference `value` is read where the source reads it: to build the argument
of `PushBack` when the capacity is 0, and otherwise in `data_[index] = value`,
after the elements were shifted and, on a full vector, after `Resize`. -/
def Insert (mem : Nat → Bool) (pos : Nat) (value : ValueRef α) (v : SimpleVector α) :
    Option (Except Exn Nat × SimpleVector α) :=
  if v.capacity_ = 0 then
    match value.read true v.data_ with
    | none => none
    | some x =>
      match PushBack mem x v with
      | (Except.error e, v1) => some (Except.error e, v1)
      | (Except.ok _, v1) => some (Except.ok 0, v1)
  else
    let index := pos
    if v.size_ + 1 > v.capacity_ then
      let prev_size := v.size_
      match Resize mem (v.capacity_ * 2) v with
      | (Except.error e, v1) => some (Except.error e, v1)
      | (Except.ok _, v1) =>
        let v2 : SimpleVector α := { v1 with size_ := prev_size }
        let shifted := std_move_backward v2.data_ index v2.size_ (v2.size_ + 1)
        match value.read (!(Resize_reallocates (v.capacity_ * 2) v)) shifted with
        | none => none
        | some x =>
          some (Except.ok index,
            { v2 with data_ := ArrayPtr.put shifted index x, size_ := v2.size_ + 1 })
    else
      let shifted := std_copy_backward v.data_ pos v.size_ (v.size_ + 1)
      match value.read true shifted with
      | none => none
      | some x =>
        some (Except.ok index,
          { v with data_ := ArrayPtr.put shifted index x, size_ := v.size_ + 1 })

/-- Member `Insert(ConstIterator pos, Type&& value)`, with `pos` given as the
index `pos - begin()`; the returned iterator is given as an index too.  The
reference `value` is read where the source reads it, as in the other overload. -/
def Insert_move (mem : Nat → Bool) (pos : Nat) (value : ValueRef α) (v : SimpleVector α) :
    Option (Except Exn Nat × SimpleVector α) :=
  if v.capacity_ = 0 then
    match value.read true v.data_ with
    | none => none
    | some x =>
      match PushBack mem x v with
      | (Except.error e, v1) => some (Except.error e, v1)
      | (Except.ok _, v1) => some (Except.ok 0, v1)
  else
    let index := pos
    if v.size_ + 1 > v.capacity_ then
      let prev_size := v.size_
      match Resize mem (v.capacity_ * 2) v with
      | (Except.error e, v1) => some (Except.error e, v1)
      | (Except.ok _, v1) =>
        let v2 : SimpleVector α := { v1 with size_ := prev_size }
        let shifted := std_move_backward v2.data_ index v2.size_ (v2.size_ + 1)
        match value.read (!(Resize_reallocates (v.capacity_ * 2) v)) shifted with
        | none => none
        | some x =>
          some (Except.ok index,
            { v2 with data_ := ArrayPtr.put shifted index x, size_ := v2.size_ + 1 })
    else
      let shifted := std_move_backward v.data_ pos v.size_ (v.size_ + 1)
      match value.read true shifted with
      | none => none
      | some x =>
        some (Except.ok index,
          { v with data_ := ArrayPtr.put shifted index x, size_ := v.size_ + 1 })

/-- Member `Erase(ConstIterator pos)`, with `pos` given as the index
`pos - begin()`: the returned iterator (as an index) and the new state.  The
source requires `pos` to be dereferenceable, so `size_` is positive and
`--size_` does not wrap. -/
def Erase (pos : Nat) (v : SimpleVector α) : Nat × SimpleVector α :=
  let moved := std_move_self v.data_ (pos + 1) v.size_ pos
  (pos, { v with data_ := moved, size_ := v.size_ - 1 })

/-- Member `GetSize()`. -/
def GetSize (v : SimpleVector α) : Nat := v.size_

/-- Member `GetCapacity()`. -/
def GetCapacity (v : SimpleVector α) : Nat := v.capacity_

/-- Member `IsEmpty()`. -/
def IsEmpty (v : SimpleVector α) : Bool := v.size_ == 0

/-- Member `operator[](index)`: unchecked access. -/
def subscript (v : SimpleVector α) (index : Nat) : α := ArrayPtr.get v.data_ index

/-- Member `At(index)`: throws `std::out_of_range` when `index >= size_`. -/
def At (v : SimpleVector α) (index : Nat) : Except Exn α :=
  if index ≥ v.size_ then Except.error Exn.out_of_range
  else Except.ok (ArrayPtr.get v.data_ index)

/-- Member `Clear()`. -/
def Clear (v : SimpleVector α) : SimpleVector α := { v with size_ := 0 }

/-- Free function `operator==`: `std::equal` over `[begin, end)` of both sides. -/
def operator_eq [BEq α] (lhs rhs : SimpleVector α) : Bool :=
  std_equal lhs.data_ 0 lhs.size_ rhs.data_ 0 rhs.size_

/-- Free function `operator!=`. -/
def operator_ne [BEq α] (lhs rhs : SimpleVector α) : Bool :=
  !(operator_eq lhs rhs)

/-! ### Abstraction: the logical contents and the class invariant -/

/-- The logical element sequence: buffer slots `[0, size_)`. -/
def elements (v : SimpleVector α) : List α := v.data_.take v.size_

/-- Class invariant: `size_ ≤ capacity_`, and the buffer holds exactly
`capacity_` slots (so the slots `[0, size_)` all exist). -/
def Inv (v : SimpleVector α) : Prop :=
  v.size_ ≤ v.capacity_ ∧ v.data_.length = v.capacity_

instance (v : SimpleVector α) : Decidable (Inv v) := by
  unfold Inv; infer_instance

end SimpleVector

namespace ArrayPtr

/-- The heap `mem` serves a buffer of `n` slots: `alloc mem n` does not throw. -/
def grants (mem : Nat → Bool) (n : Nat) : Bool := n == 0 || mem n

end ArrayPtr

namespace SimpleVector

variable {α : Type u} [Inhabited α]

/-- The program `PushBack(x_1); ...; PushBack(x_N);` run on `v`; an exception
ends it at the call that throws. -/
def PushBack_all (mem : Nat → Bool) : List α → SimpleVector α →
    Except Exn Unit × SimpleVector α
  | [], v => (Except.ok (), v)
  | x :: rest, v =>
    match PushBack mem x v with
    | (Except.error e, v1) => (Except.error e, v1)
    | (Except.ok _, v1) => PushBack_all mem rest v1

/-- The public operations that act on one vector, as calls with their arguments. -/
inductive Op (α : Type u) where
  | Reserve (ncap : Nat)
  | Resize (new_size : Nat)
  | PushBack (value : α)
  | PopBack
  | Insert (pos : Nat) (value : ValueRef α)
  | Insert_move (pos : Nat) (value : ValueRef α)
  | Erase (pos : Nat)
  | Clear

/-- Precondition the source puts on a call: `Insert` takes a position in
`[begin, end]`, `Erase` a dereferenceable position. -/
def Op.pre : Op α → SimpleVector α → Prop
  | Op.Insert pos _, v => pos ≤ v.size_
  | Op.Insert_move pos _, v => pos ≤ v.size_
  | Op.Erase pos, v => pos < v.size_
  | _, _ => True

/-- Outcome of a call, with the returned value dropped. -/
def drop_value {ρ : Type} : Except Exn ρ → Except Exn Unit
  | Except.ok _ => Except.ok ()
  | Except.error e => Except.error e

/-- Result of `Insert` with the returned iterator dropped. -/
def drop_iterator : Option (Except Exn Nat × SimpleVector α) →
    Option (Except Exn Unit × SimpleVector α)
  | none => none
  | some (o, s) => some (drop_value o, s)

/-- Runs one call: its outcome and the state the vector is left in, or `none`
when the call has undefined behaviour. -/
def Op.run (mem : Nat → Bool) : Op α → SimpleVector α →
    Option (Except Exn Unit × SimpleVector α)
  | Op.Reserve ncap, v => some (SimpleVector.Reserve mem ncap v)
  | Op.Resize new_size, v => some (SimpleVector.Resize mem new_size v)
  | Op.PushBack value, v => some (SimpleVector.PushBack mem value v)
  | Op.PopBack, v => some (Except.ok (), SimpleVector.PopBack v)
  | Op.Insert pos value, v => drop_iterator (SimpleVector.Insert mem pos value v)
  | Op.Insert_move pos value, v => drop_iterator (SimpleVector.Insert_move mem pos value v)
  | Op.Erase pos, v => some (Except.ok (), (SimpleVector.Erase pos v).2)
  | Op.Clear, v => some (Except.ok (), SimpleVector.Clear v)

/-- The program `SimpleVector c(a); c.Reserve(n);`: the vector `c` it leaves,
or the exception that ends it. -/
def copy_then_Reserve (mem : Nat → Bool) (n : Nat) (a : SimpleVector α) :
    Except Exn (SimpleVector α) :=
  match copy mem a with
  | Except.error e => Except.error e
  | Except.ok c =>
    match Reserve mem n c with
    | (Except.error e, _) => Except.error e
    | (Except.ok _, r) => Except.ok r

/-! ### Ordering -/

/-- Loop of `std::lexicographical_compare`, with `n1 = last1 - first1` and
`n2 = last2 - first2` elements left on either side:
`for (; first1 != last1 && first2 != last2; ++first1, ++first2)`
`{ if (*first1 < *first2) return true; if (*first2 < *first1) return false; }`
`return first1 == last1 && first2 != last2;`. -/
def lex_loop [LT α] [DecidableRel (LT.lt : α → α → Prop)] (a b : List α) :
    Nat → Nat → Nat → Nat → Bool
  | _, 0, _, n2 => n2 != 0
  | _, _ + 1, _, 0 => false
  | i, n1 + 1, j, n2 + 1 =>
    if ArrayPtr.get a i < ArrayPtr.get b j then true
    else if ArrayPtr.get b j < ArrayPtr.get a i then false
    else lex_loop a b (i + 1) n1 (j + 1) n2

/-- Algorithm `std::lexicographical_compare(first1, last1, first2, last2)`. -/
def std_lexicographical_compare [LT α] [DecidableRel (LT.lt : α → α → Prop)]
    (a : List α) (first1 last1 : Nat) (b : List α) (first2 last2 : Nat) : Bool :=
  lex_loop a b first1 (last1 - first1) first2 (last2 - first2)

/-- Free function `operator<`: `std::lexicographical_compare` over
`[begin, end)` of both sides. -/
def operator_lt [LT α] [DecidableRel (LT.lt : α → α → Prop)]
    (lhs rhs : SimpleVector α) : Bool :=
  std_lexicographical_compare lhs.data_ 0 lhs.size_ rhs.data_ 0 rhs.size_

/-- Free function `operator<=`: `(lhs < rhs) || (lhs == rhs)`. -/
def operator_le [BEq α] [LT α] [DecidableRel (LT.lt : α → α → Prop)]
    (lhs rhs : SimpleVector α) : Bool :=
  operator_lt lhs rhs || operator_eq lhs rhs

/-- Free function `operator>=`: `!(lhs < rhs)`. -/
def operator_ge [LT α] [DecidableRel (LT.lt : α → α → Prop)]
    (lhs rhs : SimpleVector α) : Bool :=
  !(operator_lt lhs rhs)

/-- Free function `operator>`: `(lhs >= rhs) && (lhs != rhs)`. -/
def operator_gt [BEq α] [LT α] [DecidableRel (LT.lt : α → α → Prop)]
    (lhs rhs : SimpleVector α) : Bool :=
  operator_ge lhs rhs && operator_ne lhs rhs

/-- The program `it = v.Insert(v.begin() + i, x); v.Erase(it);`: the iterator
`Erase` returns and the vector left, or the exception that ends the program;
`none` when `Insert` has undefined behaviour. -/
def Insert_then_Erase (mem : Nat → Bool) (i : Nat) (x : ValueRef α) (v : SimpleVector α) :
    Option (Except Exn (Nat × SimpleVector α)) :=
  match Insert mem i x v with
  | none => none
  | some (Except.error e, _) => some (Except.error e)
  | some (Except.ok it, v1) => some (Except.ok (Erase it v1))

/-! ### Loop lemmas -/

theorem get_of_getElem? {buf : List α} {i : Nat} {x : α} (h : buf[i]? = some x) :
    ArrayPtr.get buf i = x := by
  simp [ArrayPtr.get, List.getD_eq_getElem?_getD, h]

omit [Inhabited α] in
theorem length_assign_loop (x : α) (k i : Nat) (buf : List α) :
    (assign_loop x i k buf).length = buf.length := by
  induction k generalizing i buf with
  | zero => rfl
  | succ k ih => simp [assign_loop, ih, ArrayPtr.put]

omit [Inhabited α] in
theorem getElem?_assign_loop (x : α) (k i : Nat) (buf : List α) (j : Nat) :
    (assign_loop x i k buf)[j]? =
      if i ≤ j ∧ j < i + k ∧ j < buf.length then some x else buf[j]? := by
  induction k generalizing i buf with
  | zero =>
    simp only [assign_loop]
    rw [if_neg (by omega)]
  | succ k ih =>
    simp only [assign_loop, ArrayPtr.put]
    rw [ih, List.length_set, List.getElem?_set]
    by_cases h1 : i = j
    · subst h1
      rw [if_neg (by omega), if_pos rfl]
      by_cases h2 : i < buf.length
      · rw [if_pos h2, if_pos (by omega)]
      · rw [if_neg h2, if_neg (by omega)]
        exact (List.getElem?_eq_none (l := buf) (by omega)).symm
    · rw [if_neg h1]
      by_cases h3 : (i + 1 ≤ j ∧ j < i + 1 + k ∧ j < buf.length)
      · rw [if_pos h3, if_pos (by omega)]
      · rw [if_neg h3, if_neg (by omega)]

theorem length_move_loop (src : List α) (k first d : Nat) (dst : List α) :
    (move_loop src first k d dst).length = dst.length := by
  induction k generalizing first d dst with
  | zero => rfl
  | succ k ih => simp [move_loop, ih, ArrayPtr.put]

theorem getElem?_move_loop (src : List α) (k first d : Nat) (dst : List α) (j : Nat)
    (hs : first + k ≤ src.length) :
    (move_loop src first k d dst)[j]? =
      if d ≤ j ∧ j < d + k ∧ j < dst.length then src[first + (j - d)]? else dst[j]? := by
  induction k generalizing first d dst with
  | zero =>
    simp only [move_loop]
    rw [if_neg (by omega)]
  | succ k ih =>
    have hf : first < src.length := by omega
    have hg : ArrayPtr.get src first = src[first] :=
      get_of_getElem? (List.getElem?_eq_getElem hf)
    simp only [move_loop, ArrayPtr.put]
    rw [ih (first + 1) (d + 1) _ (by omega), List.length_set, List.getElem?_set, hg]
    by_cases h1 : d = j
    · subst h1
      rw [if_neg (by omega), if_pos rfl]
      by_cases h2 : d < dst.length
      · rw [if_pos h2, if_pos (by omega), Nat.sub_self, Nat.add_zero,
          List.getElem?_eq_getElem hf]
      · rw [if_neg h2, if_neg (by omega)]
        exact (List.getElem?_eq_none (l := dst) (by omega)).symm
    · rw [if_neg h1]
      by_cases h3 : (d + 1 ≤ j ∧ j < d + 1 + k ∧ j < dst.length)
      · have e : first + 1 + (j - (d + 1)) = first + (j - d) := by omega
        rw [if_pos h3, if_pos (by omega), e]
      · rw [if_neg h3, if_neg (by omega)]

theorem length_move_self_loop (k first d : Nat) (buf : List α) :
    (move_self_loop first k d buf).length = buf.length := by
  induction k generalizing first d buf with
  | zero => rfl
  | succ k ih => simp [move_self_loop, ih, ArrayPtr.put]

theorem getElem?_move_self_loop (k first d : Nat) (buf : List α) (j : Nat)
    (hd : d < first) (hs : first + k ≤ buf.length) :
    (move_self_loop first k d buf)[j]? =
      if d ≤ j ∧ j < d + k then buf[j + (first - d)]? else buf[j]? := by
  induction k generalizing first d buf with
  | zero =>
    simp only [move_self_loop]
    rw [if_neg (by omega)]
  | succ k ih =>
    have hf : first < buf.length := by omega
    have hg : ArrayPtr.get buf first = buf[first] :=
      get_of_getElem? (List.getElem?_eq_getElem hf)
    have hdl : d < buf.length := by omega
    simp only [move_self_loop, ArrayPtr.put]
    rw [ih (first + 1) (d + 1) _ (by omega) (by rw [List.length_set]; omega), hg]
    by_cases h1 : d = j
    · subst h1
      have e : d + (first - d) = first := by omega
      rw [if_neg (by omega), if_pos (by omega), List.getElem?_set, if_pos rfl, if_pos hdl,
        e, List.getElem?_eq_getElem hf]
    · by_cases h3 : (d + 1 ≤ j ∧ j < d + 1 + k)
      · have e : j + (first + 1 - (d + 1)) = j + (first - d) := by omega
        rw [if_pos h3, if_pos (by omega), e, List.getElem?_set, if_neg (by omega)]
      · rw [if_neg h3, if_neg (by omega), List.getElem?_set, if_neg h1]

theorem length_backward_loop (k last d_last : Nat) (buf : List α) :
    (backward_loop last k d_last buf).length = buf.length := by
  induction k generalizing last d_last buf with
  | zero => rfl
  | succ k ih => simp [backward_loop, ih, ArrayPtr.put]

theorem getElem?_backward_loop (k last d_last : Nat) (buf : List α) (j : Nat)
    (hk : k ≤ last) (hl : last < d_last) (hb : d_last ≤ buf.length) :
    (backward_loop last k d_last buf)[j]? =
      if d_last - k ≤ j ∧ j < d_last then buf[j - (d_last - last)]? else buf[j]? := by
  induction k generalizing last d_last buf with
  | zero =>
    simp only [backward_loop]
    rw [if_neg (by omega)]
  | succ k ih =>
    have hf : last - 1 < buf.length := by omega
    have hg : ArrayPtr.get buf (last - 1) = buf[last - 1] :=
      get_of_getElem? (List.getElem?_eq_getElem hf)
    have hdl : d_last - 1 < buf.length := by omega
    simp only [backward_loop, ArrayPtr.put]
    rw [ih (last - 1) (d_last - 1) _ (by omega) (by omega) (by rw [List.length_set]; omega), hg]
    by_cases h1 : d_last - 1 = j
    · subst h1
      have e : d_last - 1 - (d_last - last) = last - 1 := by omega
      rw [if_neg (by omega), if_pos (by omega), List.getElem?_set, if_pos rfl, if_pos hdl,
        e, List.getElem?_eq_getElem hf]
    · by_cases h3 : (d_last - 1 - k ≤ j ∧ j < d_last - 1)
      · have e : j - (d_last - 1 - (last - 1)) = j - (d_last - last) := by omega
        rw [if_pos h3, if_pos (by omega), e, List.getElem?_set, if_neg (by omega)]
      · rw [if_neg h3, if_neg (by omega), List.getElem?_set, if_neg h1]

/-! ### Shapes of the buffers the loops leave behind -/

omit [Inhabited α] in
theorem assign_loop_replicate (x : α) (n : Nat) :
    assign_loop x 0 n (List.replicate n x) = List.replicate n x := by
  apply List.ext_getElem?
  intro j
  rw [getElem?_assign_loop]
  split_ifs with h
  · rw [List.getElem?_replicate, if_pos (by simpa using h.2.2)]
  · rfl

omit [Inhabited α] in
theorem assign_loop_take (x : α) (buf : List α) (s n : Nat) (h1 : s ≤ n)
    (h2 : n ≤ buf.length) :
    (assign_loop x s (n - s) buf).take n = buf.take s ++ List.replicate (n - s) x := by
  apply List.ext_getElem?
  intro j
  rw [List.getElem?_take, getElem?_assign_loop, List.getElem?_append, List.length_take,
    List.getElem?_take, List.getElem?_replicate]
  have hm : min s buf.length = s := by omega
  rw [hm]
  by_cases a : j < s
  · rw [if_pos (by omega), if_neg (by omega), if_pos a, if_pos a]
  · by_cases b : j < n
    · rw [if_pos b, if_pos (by omega), if_neg a, if_pos (by omega)]
    · rw [if_neg b, if_neg a, if_neg (by omega)]

theorem std_move_fresh (src : List α) (s c : Nat) (h1 : s ≤ src.length) (h2 : s ≤ c) :
    std_move src 0 s (List.replicate c default) 0 =
      src.take s ++ List.replicate (c - s) default := by
  apply List.ext_getElem?
  intro j
  unfold std_move
  rw [getElem?_move_loop _ _ _ _ _ _ (by omega), List.getElem?_append, List.length_take,
    List.getElem?_take, List.getElem?_replicate, List.getElem?_replicate, List.length_replicate]
  have hm : min s src.length = s := by omega
  rw [hm]
  by_cases a : j < s
  · rw [if_pos (by omega), if_pos a, if_pos a]
    congr 1
    omega
  · rw [if_neg (by omega), if_neg a]
    by_cases b : j < c
    · rw [if_pos b, if_pos (by omega)]
    · rw [if_neg b, if_neg (by omega)]

omit [Inhabited α] in
theorem take_put_end (buf : List α) (s : Nat) (x : α) (h : s < buf.length) :
    (ArrayPtr.put buf s x).take (s + 1) = buf.take s ++ [x] := by
  apply List.ext_getElem?
  intro j
  unfold ArrayPtr.put
  rw [List.getElem?_take, List.getElem?_set, List.getElem?_append, List.length_take,
    List.getElem?_take]
  have hm : min s buf.length = s := by omega
  rw [hm]
  by_cases a : j < s
  · rw [if_pos (by omega), if_neg (by omega), if_pos a, if_pos a]
  · by_cases b : j = s
    · subst b
      simp [h]
    · rw [if_neg (by omega), if_neg a]
      have : 1 ≤ j - s := by omega
      exact (List.getElem?_eq_none (by simpa using this)).symm

theorem insert_shape (buf : List α) (n i : Nat) (x : α) (hi : i ≤ n)
    (hn : n + 1 ≤ buf.length) :
    (ArrayPtr.put (backward_loop n (n - i) (n + 1) buf) i x).take (n + 1) =
      (buf.take n).take i ++ x :: (buf.take n).drop i := by
  apply List.ext_getElem?
  intro j
  unfold ArrayPtr.put
  rw [List.getElem?_take, List.getElem?_set, length_backward_loop,
    getElem?_backward_loop _ _ _ _ _ (by omega) (by omega) hn, List.getElem?_append,
    List.length_take, List.length_take, List.getElem?_take, List.getElem?_take]
  have hm : min i (min n buf.length) = i := by omega
  rw [hm]
  by_cases a : j < i
  · rw [if_pos (by omega), if_neg (by omega), if_neg (by omega), if_pos a, if_pos a,
      if_pos (by omega)]
  · rw [if_neg a]
    by_cases b : j = i
    · subst b
      rw [if_pos (by omega), if_pos rfl, if_pos (by omega), Nat.sub_self]
      simp
    · obtain ⟨m, hm2⟩ : ∃ m, j - i = m + 1 := ⟨j - i - 1, by omega⟩
      rw [hm2, List.getElem?_cons_succ, List.getElem?_drop, List.getElem?_take]
      by_cases c : j < n + 1
      · have e1 : j - (n + 1 - n) = i + m := by omega
        rw [if_pos c, if_neg (by omega), if_pos (by omega), if_pos (by omega), e1]
      · rw [if_neg c, if_neg (by omega)]

theorem erase_shape (buf : List α) (n i : Nat) (hi : i < n) (hn : n ≤ buf.length) :
    (move_self_loop (i + 1) (n - (i + 1)) i buf).take (n - 1) =
      (buf.take n).take i ++ (buf.take n).drop (i + 1) := by
  apply List.ext_getElem?
  intro j
  rw [List.getElem?_take, getElem?_move_self_loop _ _ _ _ _ (by omega) (by omega),
    List.getElem?_append, List.length_take, List.length_take, List.getElem?_take,
    List.getElem?_take, List.getElem?_drop, List.getElem?_take]
  have hm : min i (min n buf.length) = i := by omega
  rw [hm]
  by_cases a : j < i
  · rw [if_pos (by omega), if_neg (by omega), if_pos a, if_pos a, if_pos (by omega)]
  · rw [if_neg a]
    by_cases c : j < n - 1
    · have e1 : j + (i + 1 - i) = i + 1 + (j - i) := by omega
      rw [if_pos c, if_pos (by omega), if_pos (by omega), e1]
    · rw [if_neg c, if_neg (by omega)]

/-! ### Allocation and the constructors -/

theorem alloc_of_grants (mem : Nat → Bool) (n : Nat) (h : ArrayPtr.grants mem n = true) :
    (ArrayPtr.alloc mem n : Except Exn (List α)) = Except.ok (List.replicate n default) := by
  unfold ArrayPtr.alloc
  by_cases h0 : n = 0
  · subst h0; rfl
  · have : mem n = true := by simpa [ArrayPtr.grants, h0] using h
    rw [if_neg h0, if_pos this]

theorem alloc_of_not_grants (mem : Nat → Bool) (n : Nat) (h : ArrayPtr.grants mem n = false) :
    (ArrayPtr.alloc mem n : Except Exn (List α)) = Except.error Exn.bad_alloc := by
  unfold ArrayPtr.alloc
  have h2 : ¬ n = 0 ∧ mem n = false := by simpa [ArrayPtr.grants] using h
  rw [if_neg h2.1, h2.2]
  rfl

theorem of_size_ok (mem : Nat → Bool) (n : Nat) (h : ArrayPtr.grants mem n = true) :
    (of_size mem n : Except Exn (SimpleVector α)) =
      Except.ok (SimpleVector.mk (List.replicate n default) n n) := by
  unfold of_size
  rw [alloc_of_grants mem n h]
  simp only [assign_loop_replicate]

theorem of_size_error (mem : Nat → Bool) (n : Nat) (h : ArrayPtr.grants mem n = false) :
    (of_size mem n : Except Exn (SimpleVector α)) = Except.error Exn.bad_alloc := by
  unfold of_size
  rw [alloc_of_not_grants mem n h]

/-! ### Resize and Reserve -/

theorem Resize_shrink (mem : Nat → Bool) (n : Nat) (v : SimpleVector α) (h : n ≤ v.size_) :
    Resize mem n v = (Except.ok (), { v with size_ := n }) := by
  unfold Resize
  rw [if_pos h]

theorem Resize_within (mem : Nat → Bool) (n : Nat) (v : SimpleVector α)
    (h1 : v.size_ < n) (h2 : n ≤ v.capacity_) :
    Resize mem n v = (Except.ok (),
      { v with data_ := assign_loop default v.size_ (n - v.size_) v.data_, size_ := n }) := by
  unfold Resize
  rw [if_neg (by omega), if_pos h2]

theorem Resize_grow (mem : Nat → Bool) (n : Nat) (v : SimpleVector α) (hv : Inv v)
    (h : v.capacity_ < n) (hm : ArrayPtr.grants mem (max n (v.capacity_ * 2)) = true) :
    Resize mem n v = (Except.ok (),
      SimpleVector.mk
        (elements v ++ List.replicate (max n (v.capacity_ * 2) - v.size_) default)
        n (max n (v.capacity_ * 2))) := by
  obtain ⟨h1, h2⟩ := hv
  unfold Resize
  rw [if_neg (by omega), if_neg (by omega)]
  simp only [of_size_ok mem _ hm]
  rw [std_move_fresh _ _ _ (by omega) (by omega)]
  rfl

theorem Resize_grow_error (mem : Nat → Bool) (n : Nat) (v : SimpleVector α)
    (hs : v.size_ < n) (h : v.capacity_ < n)
    (hm : ArrayPtr.grants mem (max n (v.capacity_ * 2)) = false) :
    Resize mem n v =
      (Except.error Exn.bad_alloc, { v with capacity_ := max n (v.capacity_ * 2) }) := by
  unfold Resize
  rw [if_neg (by omega), if_neg (by omega)]
  simp only [of_size_error mem _ hm]

theorem Reserve_keep (mem : Nat → Bool) (n : Nat) (v : SimpleVector α)
    (h : n ≤ v.capacity_) : Reserve mem n v = (Except.ok (), v) := by
  unfold Reserve
  rw [if_neg (by omega)]

theorem Reserve_grow (mem : Nat → Bool) (n : Nat) (v : SimpleVector α) (hv : Inv v)
    (h : v.capacity_ < n) (hm : ArrayPtr.grants mem n = true) :
    Reserve mem n v = (Except.ok (),
      SimpleVector.mk (elements v ++ List.replicate (n - v.size_) default) v.size_ n) := by
  obtain ⟨h1, h2⟩ := hv
  unfold Reserve
  rw [if_pos (by omega)]
  simp only [of_size_ok mem _ hm]
  rw [std_move_fresh _ _ _ (by omega) (by omega)]
  rfl

theorem Reserve_grow_error (mem : Nat → Bool) (n : Nat) (v : SimpleVector α)
    (h : v.capacity_ < n) (hm : ArrayPtr.grants mem n = false) :
    Reserve mem n v = (Except.error Exn.bad_alloc, { v with capacity_ := n }) := by
  unfold Reserve
  rw [if_pos (by omega)]
  simp only [of_size_error mem _ hm]

omit [Inhabited α] in
theorem elements_length (v : SimpleVector α) (hv : Inv v) : (elements v).length = v.size_ := by
  obtain ⟨h1, h2⟩ := hv
  simp only [elements, List.length_take]
  omega

omit [Inhabited α] in
theorem take_append_replicate (xs : List α) (s k : Nat) (x : α) (h : xs.length = s) :
    (xs ++ List.replicate k x).take s = xs := by
  subst h
  simp

/-! ### PushBack, Insert, Erase -/

omit [Inhabited α] in
theorem Inv_cap_zero (v : SimpleVector α) (hv : Inv v) (h0 : v.capacity_ = 0) :
    v = SimpleVector.mk [] 0 0 := by
  obtain ⟨h1, h2⟩ := hv
  cases v with
  | mk d s c =>
    simp only at h0 h1 h2
    subst h0
    have hs : s = 0 := by omega
    have hd : d = [] := List.length_eq_zero.mp h2
    subst hs hd
    rfl

theorem PushBack_first (mem : Nat → Bool) (x : α) (v : SimpleVector α) (hv : Inv v)
    (h0 : v.capacity_ = 0) (hm : ArrayPtr.grants mem 1 = true) :
    PushBack mem x v = (Except.ok (), SimpleVector.mk [x] 1 1) := by
  have e := Inv_cap_zero v hv h0
  subst e
  have hr := Resize_grow mem 1 (SimpleVector.mk ([] : List α) 0 0) hv (Nat.zero_lt_one) hm
  unfold PushBack
  rw [if_pos rfl, hr]
  rfl

theorem PushBack_room (mem : Nat → Bool) (x : α) (v : SimpleVector α)
    (h0 : v.capacity_ ≠ 0) (h : v.size_ < v.capacity_) :
    PushBack mem x v = (Except.ok (),
      { v with data_ := ArrayPtr.put v.data_ v.size_ x, size_ := v.size_ + 1 }) := by
  unfold PushBack
  rw [if_neg h0, if_pos (by omega)]

theorem PushBack_full (mem : Nat → Bool) (x : α) (v : SimpleVector α) (hv : Inv v)
    (h0 : v.capacity_ ≠ 0) (h : v.capacity_ ≤ v.size_)
    (hm : ArrayPtr.grants mem (v.capacity_ * 2) = true) :
    PushBack mem x v = (Except.ok (),
      SimpleVector.mk
        (ArrayPtr.put (elements v ++ List.replicate (v.capacity_ * 2 - v.size_) default)
          v.size_ x)
        (v.size_ + 1) (v.capacity_ * 2)) := by
  have hr := Resize_grow mem (v.capacity_ * 2) v hv (by omega) (by simpa using hm)
  rw [Nat.max_self] at hr
  unfold PushBack
  rw [if_neg h0, if_neg (by omega)]
  simp only [hr]

theorem max_one_double (c : Nat) (h : c ≠ 0) : max 1 (c * 2) = c * 2 := by omega

theorem PushBack_spec (mem : Nat → Bool) (x : α) (v : SimpleVector α) (hv : Inv v)
    (hm : v.size_ < v.capacity_ ∨ ArrayPtr.grants mem (max 1 (v.capacity_ * 2)) = true) :
    (PushBack mem x v).1 = Except.ok () ∧
    Inv (PushBack mem x v).2 ∧
    elements (PushBack mem x v).2 = elements v ++ [x] ∧
    (PushBack mem x v).2.size_ = v.size_ + 1 ∧
    (PushBack mem x v).2.capacity_ =
      (if v.size_ < v.capacity_ then v.capacity_ else max 1 (v.capacity_ * 2)) := by
  have hv2 := hv
  obtain ⟨h1, h2⟩ := hv2
  by_cases h0 : v.capacity_ = 0
  · have hg : ArrayPtr.grants mem 1 = true := by
      rcases hm with hm | hm
      · omega
      · simpa [h0] using hm
    rw [PushBack_first mem x v hv h0 hg]
    have e := Inv_cap_zero v hv h0
    subst e
    refine ⟨rfl, ⟨Nat.le_refl 1, rfl⟩, rfl, rfl, rfl⟩
  · by_cases hr : v.size_ < v.capacity_
    · rw [PushBack_room mem x v h0 hr, if_pos hr]
      refine ⟨rfl, ⟨?_, ?_⟩, ?_, rfl, rfl⟩
      · show v.size_ + 1 ≤ v.capacity_
        omega
      · show (ArrayPtr.put v.data_ v.size_ x).length = v.capacity_
        simp [ArrayPtr.put, h2]
      · show (ArrayPtr.put v.data_ v.size_ x).take (v.size_ + 1) = v.data_.take v.size_ ++ [x]
        exact take_put_end _ _ _ (by omega)
    · have hg : ArrayPtr.grants mem (v.capacity_ * 2) = true := by
        rcases hm with hm | hm
        · omega
        · rwa [max_one_double _ h0] at hm
      have hl := elements_length v hv
      rw [PushBack_full mem x v hv h0 (by omega) hg, if_neg hr, max_one_double _ h0]
      refine ⟨rfl, ⟨?_, ?_⟩, ?_, rfl, rfl⟩
      · show v.size_ + 1 ≤ v.capacity_ * 2
        omega
      · show (ArrayPtr.put _ v.size_ x).length = v.capacity_ * 2
        simp only [ArrayPtr.put, List.length_set, List.length_append, List.length_replicate, hl]
        omega
      · show (ArrayPtr.put _ v.size_ x).take (v.size_ + 1) = elements v ++ [x]
        rw [take_put_end _ _ _ (by
          simp only [List.length_append, List.length_replicate, hl]; omega)]
        rw [take_append_replicate _ _ _ _ hl]

theorem Erase_spec (i : Nat) (v : SimpleVector α) (hv : Inv v) (hi : i < v.size_) :
    (Erase i v).1 = i ∧
    Inv (Erase i v).2 ∧
    elements (Erase i v).2 = (elements v).take i ++ (elements v).drop (i + 1) ∧
    (Erase i v).2.size_ = v.size_ - 1 ∧
    (Erase i v).2.capacity_ = v.capacity_ := by
  obtain ⟨h1, h2⟩ := hv
  refine ⟨rfl, ⟨?_, ?_⟩, ?_, rfl, rfl⟩
  · show v.size_ - 1 ≤ v.capacity_
    omega
  · show (std_move_self v.data_ (i + 1) v.size_ i).length = v.capacity_
    rw [std_move_self, length_move_self_loop, h2]
  · show (std_move_self v.data_ (i + 1) v.size_ i).take (v.size_ - 1) = _
    exact erase_shape v.data_ v.size_ i hi (by omega)

theorem Insert_move_eq (mem : Nat → Bool) (i : Nat) (value : ValueRef α)
    (v : SimpleVector α) : Insert_move mem i value v = Insert mem i value v := rfl

omit [Inhabited α] in
theorem Inv_reallocates (v : SimpleVector α) (hv : Inv v) (h0 : v.capacity_ ≠ 0) :
    Resize_reallocates (v.capacity_ * 2) v = true := by
  have h1 := hv.1
  have a : ¬ v.capacity_ * 2 ≤ v.size_ := by omega
  have b : ¬ v.capacity_ * 2 ≤ v.capacity_ := by omega
  simp [Resize_reallocates, a, b]

theorem Insert_spec (mem : Nat → Bool) (i : Nat) (x : α) (v : SimpleVector α) (hv : Inv v)
    (hi : i ≤ v.size_)
    (hm : v.size_ < v.capacity_ ∨ ArrayPtr.grants mem (max 1 (v.capacity_ * 2)) = true) :
    ∃ r, Insert mem i (ValueRef.outside x) v = some (Except.ok i, r) ∧
      Inv r ∧
      elements r = (elements v).take i ++ x :: (elements v).drop i ∧
      r.size_ = v.size_ + 1 ∧
      r.capacity_ =
        (if v.size_ < v.capacity_ then v.capacity_ else max 1 (v.capacity_ * 2)) := by
  have hv2 := hv
  obtain ⟨h1, h2⟩ := hv2
  by_cases h0 : v.capacity_ = 0
  · have hg : ArrayPtr.grants mem 1 = true := by
      rcases hm with hm | hm
      · omega
      · simpa [h0] using hm
    have hp := PushBack_first mem x v hv h0 hg
    have e := Inv_cap_zero v hv h0
    subst e
    have i0 : i = 0 := by simpa using hi
    subst i0
    have : Insert mem 0 (ValueRef.outside x) (SimpleVector.mk ([] : List α) 0 0) =
        some (Except.ok 0, SimpleVector.mk [x] 1 1) := by
      unfold Insert
      rw [if_pos rfl]
      simp only [ValueRef.read, hp]
    exact ⟨_, this, ⟨Nat.le_refl 1, rfl⟩, rfl, rfl, rfl⟩
  · by_cases hr : v.size_ < v.capacity_
    · have : Insert mem i (ValueRef.outside x) v = some (Except.ok i,
          { v with data_ := ArrayPtr.put (std_copy_backward v.data_ i v.size_ (v.size_ + 1)) i x,
                   size_ := v.size_ + 1 }) := by
        unfold Insert
        rw [if_neg h0, if_neg (by omega)]
        rfl
      rw [if_pos hr]
      refine ⟨_, this, ⟨?_, ?_⟩, ?_, rfl, rfl⟩
      · show v.size_ + 1 ≤ v.capacity_
        omega
      · show (ArrayPtr.put (std_copy_backward v.data_ i v.size_ (v.size_ + 1)) i x).length = _
        simp only [ArrayPtr.put, List.length_set, std_copy_backward, length_backward_loop, h2]
      · show (ArrayPtr.put (std_copy_backward v.data_ i v.size_ (v.size_ + 1)) i x).take
          (v.size_ + 1) = _
        exact insert_shape v.data_ v.size_ i x hi (by omega)
    · have hg : ArrayPtr.grants mem (v.capacity_ * 2) = true := by
        rcases hm with hm | hm
        · omega
        · rwa [max_one_double _ h0] at hm
      have hl := elements_length v hv
      have hrz := Resize_grow mem (v.capacity_ * 2) v hv (by omega) (by simpa using hg)
      rw [Nat.max_self] at hrz
      have : Insert mem i (ValueRef.outside x) v = some (Except.ok i,
          SimpleVector.mk
            (ArrayPtr.put (std_move_backward
              (elements v ++ List.replicate (v.capacity_ * 2 - v.size_) default)
              i v.size_ (v.size_ + 1)) i x)
            (v.size_ + 1) (v.capacity_ * 2)) := by
        unfold Insert
        rw [if_neg h0, if_pos (by omega)]
        simp only [hrz, ValueRef.read]
      rw [if_neg hr, max_one_double _ h0]
      have hlen : v.size_ + 1 ≤
          (elements v ++ List.replicate (v.capacity_ * 2 - v.size_) (default : α)).length := by
        simp only [List.length_append, List.length_replicate, hl]; omega
      refine ⟨_, this, ⟨?_, ?_⟩, ?_, rfl, rfl⟩
      · show v.size_ + 1 ≤ v.capacity_ * 2
        omega
      · show (ArrayPtr.put (std_move_backward _ i v.size_ (v.size_ + 1)) i x).length = _
        simp only [ArrayPtr.put, List.length_set, std_move_backward, length_backward_loop,
          List.length_append, List.length_replicate, hl]
        omega
      · show (ArrayPtr.put (std_move_backward _ i v.size_ (v.size_ + 1)) i x).take
          (v.size_ + 1) = _
        have := insert_shape
          (elements v ++ List.replicate (v.capacity_ * 2 - v.size_) (default : α))
          v.size_ i x hi hlen
        rw [take_append_replicate _ _ _ _ hl] at this
        exact this

theorem Insert_slot_full_undefined (mem : Nat → Bool) (i j : Nat) (v : SimpleVector α)
    (hv : Inv v) (h0 : v.capacity_ ≠ 0) (hf : v.capacity_ ≤ v.size_)
    (hm : ArrayPtr.grants mem (v.capacity_ * 2) = true) :
    Insert mem i (ValueRef.slot j) v = none := by
  have hrz := Resize_grow mem (v.capacity_ * 2) v hv (by omega) (by simpa using hm)
  rw [Nat.max_self] at hrz
  unfold Insert
  rw [if_neg h0, if_pos (by omega)]
  simp only [hrz, ValueRef.read, Inv_reallocates v hv h0]
  rfl

/-! ### Sizes and capacities in every outcome -/

theorem Resize_num (mem : Nat → Bool) (n : Nat) (v : SimpleVector α)
    (h : v.size_ ≤ v.capacity_) :
    (Resize mem n v).2.size_ ≤ (Resize mem n v).2.capacity_ ∧
    (Resize mem n v).2.capacity_ = (if n ≤ v.capacity_ then v.capacity_
      else max n (v.capacity_ * 2)) ∧
    ((Resize mem n v).1 = Except.ok () → (Resize mem n v).2.size_ = n) ∧
    (n ≤ v.capacity_ → (Resize mem n v).1 = Except.ok ()) := by
  unfold Resize
  by_cases h1 : n ≤ v.size_
  · rw [if_pos h1, if_pos (by omega)]
    exact ⟨by show n ≤ v.capacity_; omega, rfl, fun _ => rfl, fun _ => rfl⟩
  · by_cases h2 : n ≤ v.capacity_
    · rw [if_neg h1, if_pos h2, if_pos h2]
      exact ⟨h2, rfl, fun _ => rfl, fun _ => rfl⟩
    · rw [if_neg h1, if_neg h2, if_neg h2]
      cases hc : (of_size mem (max n (v.capacity_ * 2)) : Except Exn (SimpleVector α)) with
      | error e =>
        simp only [hc]
        refine ⟨?_, trivial, ?_, ?_⟩
        · show v.size_ ≤ max n (v.capacity_ * 2)
          omega
        · intro hk; cases hk
        · intro hk; omega
      | ok tmp =>
        simp only [hc]
        refine ⟨?_, trivial, fun _ => trivial, fun _ => trivial⟩
        omega

theorem Reserve_num (mem : Nat → Bool) (n : Nat) (v : SimpleVector α)
    (h : v.size_ ≤ v.capacity_) :
    (Reserve mem n v).2.size_ ≤ (Reserve mem n v).2.capacity_ := by
  unfold Reserve
  by_cases h1 : n > v.capacity_
  · rw [if_pos h1]
    cases hc : (of_size mem n : Except Exn (SimpleVector α)) with
    | error e => simp only [hc]; show v.size_ ≤ n; omega
    | ok tmp => simp only [hc]; show v.size_ ≤ n; omega
  · rw [if_neg h1]; exact h

theorem PushBack_num (mem : Nat → Bool) (x : α) (v : SimpleVector α)
    (h : v.size_ ≤ v.capacity_) :
    (PushBack mem x v).2.size_ ≤ (PushBack mem x v).2.capacity_ := by
  unfold PushBack
  by_cases h0 : v.capacity_ = 0
  · rw [if_pos h0]
    have hr := (Resize_num mem 1 v h).1
    rcases hres : Resize mem 1 v with ⟨r, v1⟩
    rw [hres] at hr
    cases r with
    | error e => exact hr
    | ok u => exact hr
  · rw [if_neg h0]
    by_cases h1 : v.size_ + 1 ≤ v.capacity_
    · rw [if_pos h1]; exact h1
    · rw [if_neg h1]
      have hr := (Resize_num mem (v.capacity_ * 2) v h)
      rcases hres : Resize mem (v.capacity_ * 2) v with ⟨r, v1⟩
      rw [hres] at hr
      rw [if_neg (by omega), Nat.max_self] at hr
      cases r with
      | error e => exact hr.1
      | ok u =>
        show v.size_ + 1 ≤ v1.capacity_
        have := hr.2.1
        simp only at this
        omega

theorem Insert_num (mem : Nat → Bool) (i : Nat) (value : ValueRef α) (v : SimpleVector α)
    (h : v.size_ ≤ v.capacity_) (o : Except Exn Nat) (s : SimpleVector α)
    (hres : Insert mem i value v = some (o, s)) : s.size_ ≤ s.capacity_ := by
  unfold Insert at hres
  by_cases h0 : v.capacity_ = 0
  · rw [if_pos h0] at hres
    cases hrd : value.read true v.data_ with
    | none => rw [hrd] at hres; cases hres
    | some x =>
      rw [hrd] at hres
      simp only at hres
      have hr := PushBack_num mem x v h
      rcases hp : PushBack mem x v with ⟨r, v1⟩
      rw [hp] at hr hres
      cases r with
      | error e =>
        simp only [Option.some.injEq, Prod.mk.injEq] at hres
        rw [← hres.2]; exact hr
      | ok u =>
        simp only [Option.some.injEq, Prod.mk.injEq] at hres
        rw [← hres.2]; exact hr
  · rw [if_neg h0] at hres
    by_cases h1 : v.size_ + 1 > v.capacity_
    · simp only [if_pos h1] at hres
      have hr := (Resize_num mem (v.capacity_ * 2) v h)
      rcases hz : Resize mem (v.capacity_ * 2) v with ⟨r, v1⟩
      rw [hz] at hr hres
      rw [if_neg (by omega), Nat.max_self] at hr
      cases r with
      | error e =>
        simp only [Option.some.injEq, Prod.mk.injEq] at hres
        rw [← hres.2]; exact hr.1
      | ok u =>
        simp only at hres
        cases hrd : value.read (!(Resize_reallocates (v.capacity_ * 2) v))
            (std_move_backward v1.data_ i v.size_ (v.size_ + 1)) with
        | none => rw [hrd] at hres; cases hres
        | some x =>
          rw [hrd] at hres
          simp only [Option.some.injEq, Prod.mk.injEq] at hres
          rw [← hres.2]
          show v.size_ + 1 ≤ v1.capacity_
          have := hr.2.1
          simp only at this
          omega
    · simp only [if_neg h1] at hres
      cases hrd : value.read true (std_copy_backward v.data_ i v.size_ (v.size_ + 1)) with
      | none => rw [hrd] at hres; cases hres
      | some x =>
        rw [hrd] at hres
        simp only [Option.some.injEq, Prod.mk.injEq] at hres
        rw [← hres.2]
        show v.size_ + 1 ≤ v.capacity_
        omega

/-! ### What a refused allocation leaves behind -/

theorem PushBack_error (mem : Nat → Bool) (x : α) (v : SimpleVector α) (hv : Inv v)
    (hf : v.capacity_ ≤ v.size_)
    (hm : ArrayPtr.grants mem (max 1 (v.capacity_ * 2)) = false) :
    PushBack mem x v =
      (Except.error Exn.bad_alloc, { v with capacity_ := max 1 (v.capacity_ * 2) }) := by
  obtain ⟨h1, h2⟩ := hv
  unfold PushBack
  by_cases h0 : v.capacity_ = 0
  · have hr := Resize_grow_error mem 1 v (by omega) (by omega) hm
    rw [if_pos h0, hr]
  · rw [max_one_double _ h0] at hm ⊢
    have hr := Resize_grow_error mem (v.capacity_ * 2) v (by omega) (by omega)
      (by rwa [Nat.max_self])
    rw [Nat.max_self] at hr
    rw [if_neg h0, if_neg (by omega)]
    simp only [hr]

theorem Insert_error (mem : Nat → Bool) (i : Nat) (x : α) (v : SimpleVector α) (hv : Inv v)
    (hf : v.capacity_ ≤ v.size_)
    (hm : ArrayPtr.grants mem (max 1 (v.capacity_ * 2)) = false) :
    Insert mem i (ValueRef.outside x) v =
      some (Except.error Exn.bad_alloc, { v with capacity_ := max 1 (v.capacity_ * 2) }) := by
  have hp := PushBack_error mem x v hv hf hm
  obtain ⟨h1, h2⟩ := hv
  unfold Insert
  by_cases h0 : v.capacity_ = 0
  · rw [if_pos h0]
    simp only [ValueRef.read, hp]
  · rw [max_one_double _ h0] at hm ⊢
    have hr := Resize_grow_error mem (v.capacity_ * 2) v (by omega) (by omega)
      (by rwa [Nat.max_self])
    rw [Nat.max_self] at hr
    rw [if_neg h0, if_pos (by omega)]
    simp only [hr]

/-! ### The invariant after a call that returns -/

theorem Reserve_inv (mem : Nat → Bool) (n : Nat) (v : SimpleVector α) (hv : Inv v)
    (hok : (Reserve mem n v).1 = Except.ok ()) : Inv (Reserve mem n v).2 := by
  by_cases h : n ≤ v.capacity_
  · rw [Reserve_keep mem n v h]; exact hv
  · cases hg : ArrayPtr.grants mem n with
    | true =>
      have hl := elements_length v hv
      rw [Reserve_grow mem n v hv (by omega) hg]
      refine ⟨?_, ?_⟩
      · show v.size_ ≤ n
        have := hv.1
        omega
      · show (elements v ++ List.replicate (n - v.size_) default).length = n
        have := hv.1
        simp only [List.length_append, List.length_replicate, hl]
        omega
    | false =>
      rw [Reserve_grow_error mem n v (by omega) hg] at hok
      cases hok

theorem Resize_inv (mem : Nat → Bool) (n : Nat) (v : SimpleVector α) (hv : Inv v)
    (hok : (Resize mem n v).1 = Except.ok ()) : Inv (Resize mem n v).2 := by
  have hv2 := hv
  obtain ⟨h1, h2⟩ := hv2
  by_cases ha : n ≤ v.size_
  · rw [Resize_shrink mem n v ha]
    exact ⟨by show n ≤ v.capacity_; omega, h2⟩
  · by_cases hb : n ≤ v.capacity_
    · rw [Resize_within mem n v (by omega) hb]
      refine ⟨hb, ?_⟩
      show (assign_loop default v.size_ (n - v.size_) v.data_).length = v.capacity_
      rw [length_assign_loop, h2]
    · cases hg : ArrayPtr.grants mem (max n (v.capacity_ * 2)) with
      | true =>
        have hl := elements_length v hv
        rw [Resize_grow mem n v hv (by omega) hg]
        refine ⟨?_, ?_⟩
        · show n ≤ max n (v.capacity_ * 2)
          omega
        · show (elements v ++ List.replicate (max n (v.capacity_ * 2) - v.size_) default).length
            = max n (v.capacity_ * 2)
          simp only [List.length_append, List.length_replicate, hl]
          omega
      | false =>
        rw [Resize_grow_error mem n v (by omega) (by omega) hg] at hok
        cases hok

theorem PushBack_inv (mem : Nat → Bool) (x : α) (v : SimpleVector α) (hv : Inv v)
    (hok : (PushBack mem x v).1 = Except.ok ()) : Inv (PushBack mem x v).2 := by
  by_cases h : v.size_ < v.capacity_
  · exact (PushBack_spec mem x v hv (Or.inl h)).2.1
  · cases hg : ArrayPtr.grants mem (max 1 (v.capacity_ * 2)) with
    | true => exact (PushBack_spec mem x v hv (Or.inr hg)).2.1
    | false =>
      rw [PushBack_error mem x v hv (by omega) hg] at hok
      cases hok

theorem Insert_inv (mem : Nat → Bool) (i : Nat) (value : ValueRef α) (v : SimpleVector α)
    (hv : Inv v) (it : Nat) (s : SimpleVector α)
    (hres : Insert mem i value v = some (Except.ok it, s)) : Inv s := by
  have hv2 := hv
  obtain ⟨h1, h2⟩ := hv2
  unfold Insert at hres
  by_cases h0 : v.capacity_ = 0
  · rw [if_pos h0] at hres
    cases hrd : value.read true v.data_ with
    | none => rw [hrd] at hres; cases hres
    | some x =>
      rw [hrd] at hres
      simp only at hres
      have hr := PushBack_inv mem x v hv
      rcases hp : PushBack mem x v with ⟨r, v1⟩
      rw [hp] at hr hres
      cases r with
      | error e =>
        simp only [Option.some.injEq, Prod.mk.injEq] at hres
        cases hres.1
      | ok u =>
        simp only [Option.some.injEq, Prod.mk.injEq] at hres
        rw [← hres.2]; exact hr rfl
  · rw [if_neg h0] at hres
    by_cases hfull : v.size_ + 1 > v.capacity_
    · simp only [if_pos hfull] at hres
      have hr := Resize_inv mem (v.capacity_ * 2) v hv
      have hn := Resize_num mem (v.capacity_ * 2) v h1
      rcases hz : Resize mem (v.capacity_ * 2) v with ⟨r, v1⟩
      rw [hz] at hr hn hres
      rw [if_neg (by omega), Nat.max_self] at hn
      cases r with
      | error e =>
        simp only [Option.some.injEq, Prod.mk.injEq] at hres
        cases hres.1
      | ok u =>
        simp only at hres
        cases hrd : value.read (!(Resize_reallocates (v.capacity_ * 2) v))
            (std_move_backward v1.data_ i v.size_ (v.size_ + 1)) with
        | none => rw [hrd] at hres; cases hres
        | some x =>
          rw [hrd] at hres
          simp only [Option.some.injEq, Prod.mk.injEq] at hres
          rw [← hres.2]
          have hi1 := hr rfl
          have hc := hn.2.1
          simp only at hc
          refine ⟨?_, ?_⟩
          · show v.size_ + 1 ≤ v1.capacity_
            omega
          · show (ArrayPtr.put (std_move_backward v1.data_ i v.size_ (v.size_ + 1)) i x).length
              = v1.capacity_
            simp only [ArrayPtr.put, List.length_set, std_move_backward, length_backward_loop]
            exact hi1.2
    · simp only [if_neg hfull] at hres
      cases hrd : value.read true (std_copy_backward v.data_ i v.size_ (v.size_ + 1)) with
      | none => rw [hrd] at hres; cases hres
      | some x =>
        rw [hrd] at hres
        simp only [Option.some.injEq, Prod.mk.injEq] at hres
        rw [← hres.2]
        refine ⟨?_, ?_⟩
        · show v.size_ + 1 ≤ v.capacity_
          omega
        · show (ArrayPtr.put (std_copy_backward v.data_ i v.size_ (v.size_ + 1)) i x).length
            = v.capacity_
          simp only [ArrayPtr.put, List.length_set, std_copy_backward, length_backward_loop]
          exact h2

omit [Inhabited α] in
theorem drop_iterator_some (r : Option (Except Exn Nat × SimpleVector α))
    (o : Except Exn Unit) (s : SimpleVector α) (h : drop_iterator r = some (o, s)) :
    ∃ o1, r = some (o1, s) ∧ drop_value o1 = o := by
  cases r with
  | none => cases h
  | some p =>
    obtain ⟨o1, s1⟩ := p
    simp only [drop_iterator, Option.some.injEq, Prod.mk.injEq] at h
    exact ⟨o1, by rw [h.2], h.1⟩

theorem drop_value_ok (o : Except Exn Nat) (h : drop_value o = Except.ok ()) :
    ∃ it, o = Except.ok it := by
  cases o with
  | error e => cases h
  | ok it => exact ⟨it, rfl⟩

theorem Op_run_inv (mem : Nat → Bool) (op : Op α) (v : SimpleVector α) (hv : Inv v)
    (hp : op.pre v) (s : SimpleVector α) (hok : op.run mem v = some (Except.ok (), s)) :
    Inv s := by
  cases op with
  | Reserve n =>
    simp only [Op.run, Option.some.injEq] at hok
    have := Reserve_inv mem n v hv (by rw [hok])
    rwa [hok] at this
  | Resize n =>
    simp only [Op.run, Option.some.injEq] at hok
    have := Resize_inv mem n v hv (by rw [hok])
    rwa [hok] at this
  | PushBack x =>
    simp only [Op.run, Option.some.injEq] at hok
    have := PushBack_inv mem x v hv (by rw [hok])
    rwa [hok] at this
  | PopBack =>
    simp only [Op.run, Option.some.injEq, Prod.mk.injEq] at hok
    rw [← hok.2]
    unfold PopBack
    split_ifs with h0
    · exact hv
    · exact ⟨by show v.size_ - 1 ≤ v.capacity_; have := hv.1; omega, hv.2⟩
  | Insert i x =>
    obtain ⟨o1, h1, h2⟩ := drop_iterator_some _ _ _ hok
    obtain ⟨it, h3⟩ := drop_value_ok o1 h2
    rw [h3] at h1
    exact Insert_inv mem i x v hv it s h1
  | Insert_move i x =>
    obtain ⟨o1, h1, h2⟩ := drop_iterator_some _ _ _ hok
    obtain ⟨it, h3⟩ := drop_value_ok o1 h2
    rw [h3] at h1
    exact Insert_inv mem i x v hv it s h1
  | Erase i =>
    simp only [Op.run, Option.some.injEq, Prod.mk.injEq] at hok
    rw [← hok.2]
    exact (Erase_spec i v hv hp).2.1
  | Clear =>
    simp only [Op.run, Option.some.injEq, Prod.mk.injEq] at hok
    rw [← hok.2]
    exact ⟨Nat.zero_le _, hv.2⟩

theorem Op_run_num (mem : Nat → Bool) (op : Op α) (v : SimpleVector α)
    (hv : v.size_ ≤ v.capacity_) (o : Except Exn Unit) (s : SimpleVector α)
    (hres : op.run mem v = some (o, s)) : s.size_ ≤ s.capacity_ := by
  cases op with
  | Reserve n =>
    simp only [Op.run, Option.some.injEq] at hres
    have := Reserve_num mem n v hv
    rwa [hres] at this
  | Resize n =>
    simp only [Op.run, Option.some.injEq] at hres
    have := (Resize_num mem n v hv).1
    rwa [hres] at this
  | PushBack x =>
    simp only [Op.run, Option.some.injEq] at hres
    have := PushBack_num mem x v hv
    rwa [hres] at this
  | PopBack =>
    simp only [Op.run, Option.some.injEq, Prod.mk.injEq] at hres
    rw [← hres.2]
    unfold PopBack
    split_ifs with h0
    · exact hv
    · show v.size_ - 1 ≤ v.capacity_; omega
  | Insert i x =>
    obtain ⟨o1, h1, -⟩ := drop_iterator_some _ _ _ hres
    exact Insert_num mem i x v hv o1 s h1
  | Insert_move i x =>
    obtain ⟨o1, h1, -⟩ := drop_iterator_some _ _ _ hres
    exact Insert_num mem i x v hv o1 s h1
  | Erase i =>
    simp only [Op.run, Option.some.injEq, Prod.mk.injEq] at hres
    rw [← hres.2]
    show v.size_ - 1 ≤ v.capacity_; omega
  | Clear =>
    simp only [Op.run, Option.some.injEq, Prod.mk.injEq] at hres
    rw [← hres.2]
    exact Nat.zero_le _

/-! ### The invariant after construction, swap and assignment -/

theorem alloc_length (mem : Nat → Bool) (n : Nat) (buf : List α)
    (h : ArrayPtr.alloc mem n = Except.ok buf) : buf.length = n := by
  cases hg : ArrayPtr.grants mem n with
  | true =>
    rw [alloc_of_grants mem n hg] at h
    cases h
    simp
  | false =>
    rw [alloc_of_not_grants mem n hg] at h
    cases h

omit [Inhabited α] in
theorem init_loop_shape (init : List α) (s : Nat) (buf : List α) :
    (init_loop init s buf).1.length = buf.length ∧
    (init_loop init s buf).2 = s + init.length := by
  induction init generalizing s buf with
  | nil => exact ⟨rfl, rfl⟩
  | cons x rest ih =>
    have := ih (s + 1) (ArrayPtr.put buf s x)
    simp only [init_loop, List.length_cons]
    refine ⟨?_, ?_⟩
    · rw [this.1]; simp [ArrayPtr.put]
    · rw [this.2]; omega

theorem of_size_inv (mem : Nat → Bool) (n : Nat) (v : SimpleVector α)
    (h : of_size mem n = Except.ok v) : Inv v := by
  unfold of_size at h
  cases ha : (ArrayPtr.alloc mem n : Except Exn (List α)) with
  | error e => rw [ha] at h; cases h
  | ok buf =>
    rw [ha] at h
    cases h
    exact ⟨Nat.le_refl _, by
      show (assign_loop default 0 n buf).length = n
      rw [length_assign_loop, alloc_length mem n buf ha]⟩

theorem of_size_value_inv (mem : Nat → Bool) (n : Nat) (x : α) (v : SimpleVector α)
    (h : of_size_value mem n x = Except.ok v) : Inv v := by
  unfold of_size_value at h
  cases ha : (ArrayPtr.alloc mem n : Except Exn (List α)) with
  | error e => rw [ha] at h; cases h
  | ok buf =>
    rw [ha] at h
    cases h
    exact ⟨Nat.le_refl _, by
      show (assign_loop x 0 n buf).length = n
      rw [length_assign_loop, alloc_length mem n buf ha]⟩

theorem of_init_inv (mem : Nat → Bool) (init : List α) (v : SimpleVector α)
    (h : of_init mem init = Except.ok v) : Inv v := by
  unfold of_init at h
  cases ha : (ArrayPtr.alloc mem init.length : Except Exn (List α)) with
  | error e => rw [ha] at h; cases h
  | ok buf =>
    rw [ha] at h
    cases h
    have hs := init_loop_shape init 0 buf
    exact ⟨Nat.le_refl _, by
      show (init_loop init 0 buf).1.length = (init_loop init 0 buf).2
      rw [hs.1, hs.2, alloc_length mem _ buf ha]; omega⟩

theorem of_reserve_inv (mem : Nat → Bool) (obj : ReserveProxyObj) (v : SimpleVector α)
    (h : of_reserve mem obj = Except.ok v) : Inv v := by
  have he : Inv (empty : SimpleVector α) := ⟨Nat.le_refl 0, rfl⟩
  have hr := Reserve_inv mem obj.GetCapacity (empty : SimpleVector α) he
  unfold of_reserve at h
  rcases hres : Reserve mem obj.GetCapacity (empty : SimpleVector α) with ⟨r, v1⟩
  rw [hres] at h hr
  cases r with
  | error e => cases h
  | ok u =>
    cases h
    exact hr rfl

theorem copy_inv (mem : Nat → Bool) (other v : SimpleVector α) (ho : Inv other)
    (h : copy mem other = Except.ok v) : Inv v := by
  unfold copy at h
  cases ha : (ArrayPtr.alloc mem other.capacity_ : Except Exn (List α)) with
  | error e => rw [ha] at h; cases h
  | ok buf =>
    rw [ha] at h
    cases h
    exact ⟨ho.1, by
      show (std_copy other.data_ 0 other.size_ buf 0).length = other.capacity_
      rw [std_copy, length_move_loop, alloc_length mem _ buf ha]⟩

theorem assign_copy_inv (mem : Nat → Bool) (self other : SimpleVector α) (hs : Inv self)
    (ho : Inv other) : Inv (assign_copy mem self other).2 := by
  unfold assign_copy
  cases hc : copy mem other with
  | error e => exact hs
  | ok tmp => exact copy_inv mem other tmp ho hc

/-! ### Reading elements, sequences of PushBack -/

theorem grants_of_all (mem : Nat → Bool) (hm : ∀ n, mem n = true) (n : Nat) :
    ArrayPtr.grants mem n = true := by
  simp [ArrayPtr.grants, hm n]

theorem get_of_elements (v : SimpleVector α) (xs : List α) (i : Nat) (he : elements v = xs)
    (hi : i < xs.length) : ArrayPtr.get v.data_ i = xs[i] := by
  apply get_of_getElem?
  have h1 : (elements v)[i]? = some xs[i] := by
    rw [he]; exact List.getElem?_eq_getElem hi
  have h2 : i < v.size_ := by
    have : (elements v).length ≤ v.size_ := by
      simp only [elements, List.length_take]; omega
    rw [he] at this
    omega
  rw [elements, List.getElem?_take, if_pos h2] at h1
  exact h1

theorem At_of_elements (v : SimpleVector α) (xs : List α) (i : Nat) (he : elements v = xs)
    (hs : v.size_ = xs.length) (hi : i < xs.length) : At v i = Except.ok xs[i] := by
  unfold At
  rw [if_neg (by omega), get_of_elements v xs i he hi]

theorem PushBack_all_spec (mem : Nat → Bool) (hm : ∀ n, mem n = true) (xs : List α)
    (v : SimpleVector α) (hv : Inv v) :
    (PushBack_all mem xs v).1 = Except.ok () ∧
    Inv (PushBack_all mem xs v).2 ∧
    elements (PushBack_all mem xs v).2 = elements v ++ xs ∧
    (PushBack_all mem xs v).2.size_ = v.size_ + xs.length := by
  induction xs generalizing v with
  | nil => exact ⟨rfl, hv, by simp [PushBack_all], rfl⟩
  | cons x rest ih =>
    have hp := PushBack_spec mem x v hv (Or.inr (grants_of_all mem hm _))
    rcases hres : PushBack mem x v with ⟨r, v1⟩
    rw [hres] at hp
    obtain ⟨h1, h2, h3, h4, -⟩ := hp
    simp only at h1 h2 h3 h4
    subst h1
    have := ih v1 h2
    simp only [PushBack_all, hres]
    refine ⟨this.1, this.2.1, ?_, ?_⟩
    · rw [this.2.2.1, h3]; simp
    · rw [this.2.2.2, h4, List.length_cons]; omega

theorem Reserve_effect (mem : Nat → Bool) (n : Nat) (v : SimpleVector α) (hv : Inv v)
    (hm : n ≤ v.capacity_ ∨ ArrayPtr.grants mem n = true) :
    (Reserve mem n v).1 = Except.ok () ∧
    (Reserve mem n v).2.size_ = v.size_ ∧
    elements (Reserve mem n v).2 = elements v ∧
    (Reserve mem n v).2.capacity_ = max v.capacity_ n ∧
    (v.capacity_ < n → (Reserve mem n v).2.capacity_ = n) ∧
    (n ≤ v.capacity_ → (Reserve mem n v).2 = v) := by
  have hl := elements_length v hv
  by_cases h : n ≤ v.capacity_
  · rw [Reserve_keep mem n v h]
    exact ⟨rfl, rfl, rfl, by show v.capacity_ = max v.capacity_ n; omega,
      fun h2 => by omega, fun _ => rfl⟩
  · have hg : ArrayPtr.grants mem n = true := by
      rcases hm with hm | hm
      · omega
      · exact hm
    rw [Reserve_grow mem n v hv (by omega) hg]
    refine ⟨rfl, rfl, ?_, by show n = max v.capacity_ n; omega, fun _ => rfl,
      fun h2 => by omega⟩
    show (elements v ++ List.replicate (n - v.size_) default).take v.size_ = elements v
    exact take_append_replicate _ _ _ _ hl

/-! ### Equality -/

theorem equal_loop_iff [BEq α] (a b : List α) (k i j : Nat) :
    equal_loop a b i j k = true ↔
      ∀ t, t < k → (ArrayPtr.get a (i + t) == ArrayPtr.get b (j + t)) = true := by
  induction k generalizing i j with
  | zero => simp [equal_loop]
  | succ k ih =>
    simp only [equal_loop]
    cases hc : (ArrayPtr.get a i == ArrayPtr.get b j) with
    | false =>
      simp only [Bool.not_false, if_true]
      constructor
      · intro h; cases h
      · intro h
        have := h 0 (by omega)
        rw [Nat.add_zero, Nat.add_zero, hc] at this
        cases this
    | true =>
      simp only [Bool.not_true, Bool.false_eq_true, if_false]
      rw [ih]
      constructor
      · intro h t ht
        cases t with
        | zero => exact hc
        | succ t =>
          have := h t (by omega)
          rwa [Nat.add_assoc, Nat.add_assoc, Nat.add_comm 1 t] at this
      · intro h t ht
        have := h (t + 1) (by omega)
        rwa [Nat.add_assoc, Nat.add_assoc, Nat.add_comm 1 t]

theorem operator_eq_iff [BEq α] (a b : SimpleVector α) :
    operator_eq a b = true ↔
      a.size_ = b.size_ ∧
      ∀ i, i < a.size_ → (ArrayPtr.get a.data_ i == ArrayPtr.get b.data_ i) = true := by
  unfold operator_eq std_equal
  simp only [Nat.sub_zero]
  by_cases h : a.size_ = b.size_
  · rw [if_neg (by simpa using h), equal_loop_iff]
    simp only [Nat.zero_add]
    exact ⟨fun hh => ⟨h, hh⟩, fun hh => hh.2⟩
  · rw [if_pos h]
    exact ⟨fun hh => (by cases hh), fun hh => absurd hh.1 h⟩

theorem get_congr_elements (a b : SimpleVector α) (hs : a.size_ = b.size_)
    (he : elements a = elements b) (i : Nat) (hi : i < a.size_) :
    ArrayPtr.get a.data_ i = ArrayPtr.get b.data_ i := by
  have h1 : (elements a)[i]? = a.data_[i]? := by
    rw [elements, List.getElem?_take, if_pos hi]
  have h2 : (elements b)[i]? = b.data_[i]? := by
    rw [elements, List.getElem?_take, if_pos (by omega)]
  rw [he, h2] at h1
  simp only [ArrayPtr.get, List.getD_eq_getElem?_getD, h1]

theorem operator_eq_congr [BEq α] (a b c d : SimpleVector α) (hs1 : c.size_ = a.size_)
    (he1 : elements c = elements a) (hs2 : d.size_ = b.size_)
    (he2 : elements d = elements b) : operator_eq c d = operator_eq a b := by
  rw [Bool.eq_iff_iff, operator_eq_iff, operator_eq_iff, hs1, hs2]
  constructor
  · rintro ⟨h1, h2⟩
    refine ⟨h1, fun i hi => ?_⟩
    have := h2 i hi
    rwa [get_congr_elements c a hs1 he1 i (by omega),
      get_congr_elements d b hs2 he2 i (by omega)] at this
  · rintro ⟨h1, h2⟩
    refine ⟨h1, fun i hi => ?_⟩
    rw [get_congr_elements c a hs1 he1 i (by omega),
      get_congr_elements d b hs2 he2 i (by omega)]
    exact h2 i hi

theorem copy_ok (mem : Nat → Bool) (other : SimpleVector α) (ho : Inv other)
    (hm : ArrayPtr.grants mem other.capacity_ = true) :
    copy mem other = Except.ok (SimpleVector.mk
      (elements other ++ List.replicate (other.capacity_ - other.size_) default)
      other.size_ other.capacity_) := by
  obtain ⟨h1, h2⟩ := ho
  unfold copy
  rw [alloc_of_grants mem _ hm]
  have := std_move_fresh other.data_ other.size_ other.capacity_ (by omega) h1
  unfold std_move at this
  simp only [std_copy, this]
  rfl

theorem copy_then_Reserve_ok (mem : Nat → Bool) (hm : ∀ k, mem k = true) (n : Nat)
    (a : SimpleVector α) (ha : Inv a) :
    ∃ r, copy_then_Reserve mem n a = Except.ok r ∧ r.size_ = a.size_ ∧
      elements r = elements a ∧ r.capacity_ = max a.capacity_ n := by
  have hl := elements_length a ha
  have hc := copy_ok mem a ha (grants_of_all mem hm _)
  have hci : Inv (SimpleVector.mk
      (elements a ++ List.replicate (a.capacity_ - a.size_) default)
      a.size_ a.capacity_) := copy_inv mem a _ ha hc
  have hce : elements (SimpleVector.mk
      (elements a ++ List.replicate (a.capacity_ - a.size_) default)
      a.size_ a.capacity_) = elements a := take_append_replicate _ _ _ _ hl
  have hr := Reserve_effect mem n _ hci (Or.inr (grants_of_all mem hm _))
  rcases hres : Reserve mem n (SimpleVector.mk
      (elements a ++ List.replicate (a.capacity_ - a.size_) default)
      a.size_ a.capacity_) with ⟨o, r⟩
  rw [hres] at hr
  obtain ⟨h1, h2, h3, h4, -, -⟩ := hr
  simp only at h1
  subst h1
  refine ⟨r, ?_, h2, h3.trans hce, h4⟩
  unfold copy_then_Reserve
  rw [hc]
  simp only [hres]

/-! ### Claims -/

/-- The class invariant `Inv` (which gives `size_ ≤ capacity_` and makes the
logical elements exactly the buffer slots `[0, size_)`) holds for every vector a
constructor produces and, starting from a vector that has it, for the vector
left by every public operation that returns.  The inequality
`size_ ≤ capacity_` alone survives each one-vector operation in every outcome
that is defined, a thrown exception included. -/
theorem invariant_after_return (mem : Nat → Bool) :
    (∀ v : SimpleVector α, Inv v →
      v.size_ ≤ v.capacity_ ∧ (elements v).length = v.size_) ∧
    Inv (empty : SimpleVector α) ∧
    (∀ (n : Nat) (v : SimpleVector α), of_size mem n = Except.ok v → Inv v) ∧
    (∀ (n : Nat) (x : α) (v : SimpleVector α), of_size_value mem n x = Except.ok v → Inv v) ∧
    (∀ (init : List α) (v : SimpleVector α), of_init mem init = Except.ok v → Inv v) ∧
    (∀ (obj : ReserveProxyObj) (v : SimpleVector α),
      of_reserve mem obj = Except.ok v → Inv v) ∧
    (∀ other v : SimpleVector α, Inv other → copy mem other = Except.ok v → Inv v) ∧
    (∀ other : SimpleVector α, Inv other →
      Inv (move_ctor other).1 ∧ Inv (move_ctor other).2) ∧
    (∀ (op : Op α) (v s : SimpleVector α), Inv v → op.pre v →
      op.run mem v = some (Except.ok (), s) → Inv s) ∧
    (∀ (op : Op α) (v s : SimpleVector α) (o : Except Exn Unit),
      v.size_ ≤ v.capacity_ → op.pre v →
      op.run mem v = some (o, s) → s.size_ ≤ s.capacity_) ∧
    (∀ a b : SimpleVector α, Inv a → Inv b → Inv (swap a b).1 ∧ Inv (swap a b).2) ∧
    (∀ a b : SimpleVector α, Inv a → Inv b → Inv (assign_copy mem a b).2) ∧
    (∀ a : SimpleVector α, Inv a → Inv (assign_copy_self a)) ∧
    (∀ a b : SimpleVector α, Inv a → Inv b →
      Inv (assign_move a b).1 ∧ Inv (assign_move a b).2) ∧
    (∀ a : SimpleVector α, Inv a → Inv (assign_move_self a)) := by
  have he : Inv (SimpleVector.mk ([] : List α) 0 0) := ⟨Nat.le_refl 0, rfl⟩
  refine ⟨fun v hv => ⟨hv.1, elements_length v hv⟩, he, of_size_inv mem,
    of_size_value_inv mem, of_init_inv mem, of_reserve_inv mem,
    fun other v ho h => copy_inv mem other v ho h, fun other ho => ⟨ho, he⟩,
    fun op v s hv hp hok => Op_run_inv mem op v hv hp s hok,
    fun op v s o hv _ hres => Op_run_num mem op v hv o s hres,
    fun a b ha hb => ⟨hb, ha⟩, fun a b ha hb => assign_copy_inv mem a b ha hb,
    fun a ha => ha, fun a b _ hb => ⟨hb, he⟩, fun a ha => ha⟩

/-- C1, evaluated where it fails: on a heap that serves at most 1000 slots,
`Reserve(1000000)` on `{4, 5}` (size 2, capacity 2, which has the invariant)
throws `bad_alloc` and leaves capacity 1000000 over the 2-slot buffer.  The
next `PushBack(6)` asks for no memory: it takes the branch
`size_ + 1 <= capacity_`, writes `data_[2]` (outside the 2 allocated slots, so
the write is lost in the embedding) and returns with size 3.  The vector left
satisfies `size_ ≤ capacity_`, but its 3 logical elements are not buffer slots
`[0, 3)`: the buffer has 2 slots and the invariant is lost. -/
theorem refused_Reserve_then_PushBack_overruns :
    Inv (SimpleVector.mk [4, 5] 2 2) ∧
    Reserve (fun n => decide (n ≤ 1000)) 1000000 (SimpleVector.mk [4, 5] 2 2)
      = (Except.error Exn.bad_alloc, SimpleVector.mk [4, 5] 2 1000000) ∧
    PushBack (fun n => decide (n ≤ 1000)) 6
        (Reserve (fun n => decide (n ≤ 1000)) 1000000 (SimpleVector.mk [4, 5] 2 2)).2
      = (Except.ok (), SimpleVector.mk [4, 5] 3 1000000) ∧
    ¬ Inv (SimpleVector.mk [4, 5] 3 1000000) ∧
    (SimpleVector.mk [4, 5] 3 1000000).data_.length
      < GetSize (SimpleVector.mk [4, 5] 3 1000000) ∧
    (elements (SimpleVector.mk [4, 5] 3 1000000)).length
      ≠ GetSize (SimpleVector.mk [4, 5] 3 1000000) :=
  ⟨by decide, rfl, rfl, by decide, by decide, by decide⟩

/-- C2: on a heap that serves every request, `PushBack(x)` on a vector with
elements `xs` returns and leaves elements `xs ++ [x]` and size `+ 1`; running
`PushBack(x_1), ..., PushBack(x_N)` on a vector appends `x_1 .. x_N` in order;
and run on the default-constructed vector it yields `GetSize() == N` with
`x_{i+1}` at every index `i < N`. -/
theorem PushBack_sequence (mem : Nat → Bool) (hm : ∀ n, mem n = true) (xs : List α)
    (x : α) (v : SimpleVector α) (hv : Inv v) :
    ((PushBack mem x v).1 = Except.ok () ∧
      elements (PushBack mem x v).2 = elements v ++ [x] ∧
      GetSize (PushBack mem x v).2 = GetSize v + 1) ∧
    ((PushBack_all mem xs v).1 = Except.ok () ∧
      elements (PushBack_all mem xs v).2 = elements v ++ xs ∧
      GetSize (PushBack_all mem xs v).2 = GetSize v + xs.length) ∧
    ((PushBack_all mem xs (empty : SimpleVector α)).1 = Except.ok () ∧
      GetSize (PushBack_all mem xs (empty : SimpleVector α)).2 = xs.length ∧
      elements (PushBack_all mem xs (empty : SimpleVector α)).2 = xs ∧
      ∀ (i : Nat) (h : i < xs.length),
        At (PushBack_all mem xs (empty : SimpleVector α)).2 i = Except.ok xs[i] ∧
        subscript (PushBack_all mem xs (empty : SimpleVector α)).2 i = xs[i]) := by
  have he : Inv (empty : SimpleVector α) := ⟨Nat.le_refl 0, rfl⟩
  have h1 := PushBack_spec mem x v hv (Or.inr (grants_of_all mem hm _))
  have h2 := PushBack_all_spec mem hm xs v hv
  have h3 := PushBack_all_spec mem hm xs (empty : SimpleVector α) he
  have h3e : elements (PushBack_all mem xs (empty : SimpleVector α)).2 = xs := by
    rw [h3.2.2.1]; rfl
  have h3s : (PushBack_all mem xs (empty : SimpleVector α)).2.size_ = xs.length := by
    rw [h3.2.2.2]; exact Nat.zero_add _
  exact ⟨⟨h1.1, h1.2.2.1, h1.2.2.2.1⟩, ⟨h2.1, h2.2.2.1, h2.2.2.2⟩, h3.1, h3s, h3e,
    fun i h => ⟨At_of_elements _ xs i h3e h3s h, get_of_elements _ xs i h3e h⟩⟩

/-- Witness for C2: pushing 9 onto the full vector `{4, 5}` and the sequence
`7, 8, 9` onto it and onto the empty vector. -/
theorem PushBack_sequence_witness :
    elements (PushBack (fun _ => true) 9 (SimpleVector.mk [4, 5] 2 2)).2 = [4, 5] ++ [9] ∧
    elements (PushBack_all (fun _ => true) [7, 8, 9] (empty : SimpleVector Nat)).2
      = [7, 8, 9] :=
  have h := PushBack_sequence (fun _ => true) (fun _ => rfl) [7, 8, 9] (9 : Nat)
    (SimpleVector.mk [4, 5] 2 2) (by decide)
  ⟨h.1.2.1, h.2.2.2.2.1⟩

/-- C3: after a `PushBack(x)` that obtains the memory it asks for, the capacity
is exactly 1 if it was 0, unchanged if `size < capacity`, and exactly `2 * C`
(hence at least `C + 1`) if `size == capacity == C > 0`. -/
theorem PushBack_capacity (mem : Nat → Bool) (x : α) (v : SimpleVector α) (hv : Inv v)
    (hm : v.size_ < v.capacity_ ∨ ArrayPtr.grants mem (max 1 (v.capacity_ * 2)) = true) :
    (PushBack mem x v).1 = Except.ok () ∧
    (GetCapacity v = 0 → GetCapacity (PushBack mem x v).2 = 1) ∧
    (GetSize v < GetCapacity v → GetCapacity (PushBack mem x v).2 = GetCapacity v) ∧
    (GetSize v = GetCapacity v → 0 < GetCapacity v →
      GetCapacity (PushBack mem x v).2 = 2 * GetCapacity v ∧
      GetCapacity v + 1 ≤ GetCapacity (PushBack mem x v).2) := by
  have h := PushBack_spec mem x v hv hm
  have hc := h.2.2.2.2
  simp only [GetCapacity, GetSize]
  refine ⟨h.1, ?_, ?_, ?_⟩
  · intro h0
    have hs := hv.1
    rw [hc, if_neg (by omega), h0]
    rfl
  · intro hlt
    rw [hc, if_pos hlt]
  · intro heq hpos
    rw [hc, if_neg (by omega)]
    omega

/-- Witness for C3: pushing onto the full vector `{4, 5}` doubles its capacity. -/
theorem PushBack_capacity_witness :
    GetCapacity (PushBack (fun _ => true) 9 (SimpleVector.mk [4, 5] 2 2)).2 = 2 * 2 :=
  ((PushBack_capacity (fun _ => true) (9 : Nat) (SimpleVector.mk [4, 5] 2 2) (by decide)
    (Or.inr rfl)).2.2.2 rfl (by decide)).1

/-- For a value `x` held outside the vector: with elements `xs` (size `n`) and
an index `i ≤ n`, both overloads of `Insert(begin() + i, x)` return the iterator
at index `i` and leave a vector of size `n + 1` with elements
`xs[0..i) ++ [x] ++ xs[i..n)`, in the three branches (capacity 0, full, room
available). -/
theorem Insert_outside_inserts (mem : Nat → Bool) (i : Nat) (x : α) (v : SimpleVector α)
    (hv : Inv v) (hi : i ≤ GetSize v)
    (hm : v.size_ < v.capacity_ ∨ ArrayPtr.grants mem (max 1 (v.capacity_ * 2)) = true) :
    ∃ r, Insert mem i (ValueRef.outside x) v = some (Except.ok i, r) ∧
      Insert_move mem i (ValueRef.outside x) v = some (Except.ok i, r) ∧
      GetSize r = GetSize v + 1 ∧
      elements r = (elements v).take i ++ [x] ++ (elements v).drop i ∧
      At r i = Except.ok x ∧
      (∀ j, j < i → At r j = At v j) ∧
      (∀ j, i ≤ j → j < GetSize v → At r (j + 1) = At v j) := by
  obtain ⟨r, hr, -, h3, h4, -⟩ := Insert_spec mem i x v hv hi hm
  have hl := elements_length v hv
  simp only [GetSize] at hi ⊢
  have he : elements r = (elements v).take i ++ [x] ++ (elements v).drop i := by
    rw [h3]; simp
  have hlen : ((elements v).take i ++ [x] ++ (elements v).drop i).length = v.size_ + 1 := by
    simp only [List.length_append, List.length_take, List.length_drop, List.length_cons,
      List.length_nil, hl]
    omega
  have hs : r.size_ = ((elements v).take i ++ [x] ++ (elements v).drop i).length := by
    rw [hlen]; exact h4
  have hti : ((elements v).take i).length = i := by
    rw [List.length_take, hl]; omega
  refine ⟨r, hr, hr, h4, he, ?_, ?_, ?_⟩
  · rw [At_of_elements _ _ i he hs (by omega)]
    congr 1
    rw [List.getElem_append_left (by simp [hti]), List.getElem_append_right (by simp [hti])]
    simp [hti]
  · intro j hj
    rw [At_of_elements _ _ j he hs (by omega), At_of_elements v _ j rfl hl.symm (by omega)]
    congr 1
    rw [List.getElem_append_left (by simp [hti]; omega),
      List.getElem_append_left (by simp [hti]; omega), List.getElem_take]
  · intro j hj1 hj2
    rw [At_of_elements _ _ (j + 1) he hs (by omega),
      At_of_elements v _ j rfl hl.symm (by omega)]
    congr 1
    rw [List.getElem_append_right (by simp [hti]; omega), List.getElem_drop]
    congr 1
    simp [hti]
    omega

/-- C4, evaluated where it fails: `SimpleVector<int> v{4, 5, 6}; v.Reserve(5);`
gives size 3, capacity 5, and `v.Insert(v.begin(), v[2])` passes a reference to
slot 2, which holds 6.  `copy_backward` shifts `[4, 5, 6]` one slot right, after
which slot 2 holds 5, and only then `data_[0] = value` reads the reference: the
vector is left as `{5, 4, 5, 6}` and index 0 reads 5, not the value 6 that was
passed.  The `Type&&` overload does the same.  On the full vector `{4, 5, 6}`
(capacity 3) the reference is read after `Resize` has freed the buffer it
points into, which is undefined behaviour. -/
theorem Insert_own_element_stores_shifted_value :
    Reserve (fun _ => true) 5 (SimpleVector.mk [4, 5, 6] 3 3)
      = (Except.ok (), SimpleVector.mk [4, 5, 6, 0, 0] 3 5) ∧
    subscript (SimpleVector.mk [4, 5, 6, 0, 0] 3 5) 2 = 6 ∧
    Insert (fun _ => true) 0 (ValueRef.slot 2) (SimpleVector.mk [4, 5, 6, 0, 0] 3 5)
      = some (Except.ok 0, SimpleVector.mk [5, 4, 5, 6, 0] 4 5) ∧
    Insert_move (fun _ => true) 0 (ValueRef.slot 2) (SimpleVector.mk [4, 5, 6, 0, 0] 3 5)
      = some (Except.ok 0, SimpleVector.mk [5, 4, 5, 6, 0] 4 5) ∧
    At (SimpleVector.mk [5, 4, 5, 6, 0] 4 5) 0 = Except.ok 5 ∧
    elements (SimpleVector.mk [5, 4, 5, 6, 0] 4 5) = [5, 4, 5, 6] ∧
    Insert (fun _ => true) 0 (ValueRef.slot 2) (SimpleVector.mk [4, 5, 6] 3 3) = none ∧
    Insert_move (fun _ => true) 0 (ValueRef.slot 2) (SimpleVector.mk [4, 5, 6] 3 3) = none :=
  ⟨rfl, rfl, rfl, rfl, rfl, rfl, rfl, rfl⟩

/-- C5: for a vector with elements `xs` (size `n ≥ 1`) and an index `i < n`,
`Erase(begin() + i)` leaves a vector of size `n - 1` with elements
`xs[0..i) ++ xs[i+1..n)` and the same capacity, and returns the iterator at
index `i`: the element that followed the erased one, or `end()` when
`i = n - 1`. -/
theorem Erase_removes (i : Nat) (v : SimpleVector α) (hv : Inv v) (hi : i < GetSize v) :
    (Erase i v).1 = i ∧
    GetSize (Erase i v).2 = GetSize v - 1 ∧
    elements (Erase i v).2 = (elements v).take i ++ (elements v).drop (i + 1) ∧
    GetCapacity (Erase i v).2 = GetCapacity v ∧
    (i + 1 < GetSize v → At (Erase i v).2 (Erase i v).1 = At v (i + 1)) ∧
    (i + 1 = GetSize v → (Erase i v).1 = GetSize (Erase i v).2) := by
  have h := Erase_spec i v hv hi
  have hl := elements_length v hv
  simp only [GetSize, GetCapacity] at hi ⊢
  have hti : ((elements v).take i).length = i := by
    rw [List.length_take, hl]; omega
  have hlen : ((elements v).take i ++ (elements v).drop (i + 1)).length = v.size_ - 1 := by
    simp only [List.length_append, List.length_take, List.length_drop, hl]
    omega
  refine ⟨rfl, h.2.2.2.1, h.2.2.1, h.2.2.2.2, ?_, ?_⟩
  · intro hlt
    rw [h.1, At_of_elements _ _ i h.2.2.1 (by rw [hlen]; exact h.2.2.2.1) (by omega),
      At_of_elements v _ (i + 1) rfl hl.symm (by omega)]
    congr 1
    rw [List.getElem_append_right (by simp [hti]), List.getElem_drop]
    congr 1
    simp [hti]
  · intro heq
    rw [h.1, h.2.2.2.1]
    omega

/-- Witness for C5: erasing index 1 of `{4, 5, 6}`. -/
theorem Erase_removes_witness :
    elements (Erase 1 (SimpleVector.mk [4, 5, 6] 3 3)).2 = [4, 5, 6].take 1 ++ [4, 5, 6].drop 2 :=
  (Erase_removes 1 (SimpleVector.mk [4, 5, (6 : Nat)] 3 3) (by decide) (by decide)).2.2.1

/-- C6: for a vector with elements `xs` (size `s`, capacity `c`), `Resize(n)`
leaves size `n`; if `n ≤ s` the elements are `xs[0..n)` and the capacity stays
`c`; if `s < n ≤ c` the elements are `xs` followed by `n - s` values `Type()` and
the capacity stays `c`; if `n > c` (and the memory is obtained) the elements are
`xs` followed by `n - s` values `Type()` and the capacity is exactly
`max(n, 2 * c)`, which is `n` when `c = 0`. -/
theorem Resize_cases (mem : Nat → Bool) (n : Nat) (v : SimpleVector α) (hv : Inv v) :
    (n ≤ GetSize v →
      (Resize mem n v).1 = Except.ok () ∧
      GetSize (Resize mem n v).2 = n ∧
      elements (Resize mem n v).2 = (elements v).take n ∧
      GetCapacity (Resize mem n v).2 = GetCapacity v) ∧
    (GetSize v < n → n ≤ GetCapacity v →
      (Resize mem n v).1 = Except.ok () ∧
      GetSize (Resize mem n v).2 = n ∧
      elements (Resize mem n v).2 = elements v ++ List.replicate (n - GetSize v) default ∧
      GetCapacity (Resize mem n v).2 = GetCapacity v) ∧
    (GetCapacity v < n → ArrayPtr.grants mem (max n (2 * GetCapacity v)) = true →
      (Resize mem n v).1 = Except.ok () ∧
      GetSize (Resize mem n v).2 = n ∧
      elements (Resize mem n v).2 = elements v ++ List.replicate (n - GetSize v) default ∧
      GetCapacity (Resize mem n v).2 = max n (2 * GetCapacity v) ∧
      (GetCapacity v = 0 → GetCapacity (Resize mem n v).2 = n)) := by
  have hv2 := hv
  obtain ⟨h1, h2⟩ := hv2
  have hl := elements_length v hv
  simp only [GetSize, GetCapacity]
  refine ⟨?_, ?_, ?_⟩
  · intro ha
    rw [Resize_shrink mem n v ha]
    refine ⟨rfl, rfl, ?_, rfl⟩
    show v.data_.take n = (v.data_.take v.size_).take n
    rw [List.take_take, Nat.min_eq_left ha]
  · intro ha hb
    rw [Resize_within mem n v ha hb]
    refine ⟨rfl, rfl, ?_, rfl⟩
    show (assign_loop default v.size_ (n - v.size_) v.data_).take n = _
    exact assign_loop_take default v.data_ v.size_ n (by omega) (by omega)
  · intro ha hg
    rw [Nat.mul_comm] at hg ⊢
    rw [Resize_grow mem n v hv ha hg]
    refine ⟨rfl, rfl, ?_, rfl, ?_⟩
    · show (elements v ++ List.replicate (max n (v.capacity_ * 2) - v.size_) default).take n
        = elements v ++ List.replicate (n - v.size_) default
      rw [List.take_append_eq_append_take, hl, List.take_of_length_le (by omega),
        List.take_replicate]
      congr 2
      omega
    · intro h0
      show max n (v.capacity_ * 2) = n
      omega

/-- Witness for C6: growing `{4, 5}` (capacity 2) to size 3 gives capacity 4. -/
theorem Resize_cases_witness :
    elements (Resize (fun _ => true) 3 (SimpleVector.mk [4, 5] 2 2)).2 = [4, 5, 0] ∧
    GetCapacity (Resize (fun _ => true) 3 (SimpleVector.mk [4, 5] 2 2)).2 = 4 :=
  have h := (Resize_cases (fun _ => true) 3 (SimpleVector.mk [4, 5] 2 2) (by decide)).2.2
    (by decide) rfl
  ⟨h.2.2.1, h.2.2.2.1⟩

/-- C7: for a vector of size `s`, capacity `c` and elements `xs`, `Reserve(n)`
(when it obtains the memory it asks for) leaves size and elements unchanged and
sets the capacity to exactly `n` if `n > c`; it changes nothing at all if
`n ≤ c`.  The resulting capacity is `max(c, n)`. -/
theorem Reserve_capacity (mem : Nat → Bool) (n : Nat) (v : SimpleVector α) (hv : Inv v)
    (hm : n ≤ GetCapacity v ∨ ArrayPtr.grants mem n = true) :
    (Reserve mem n v).1 = Except.ok () ∧
    GetSize (Reserve mem n v).2 = GetSize v ∧
    elements (Reserve mem n v).2 = elements v ∧
    GetCapacity (Reserve mem n v).2 = max (GetCapacity v) n ∧
    (GetCapacity v < n → GetCapacity (Reserve mem n v).2 = n) ∧
    (n ≤ GetCapacity v → (Reserve mem n v).2 = v) :=
  Reserve_effect mem n v hv hm

/-- Witness for C7: reserving 5 slots for `{4, 5}` (capacity 2). -/
theorem Reserve_capacity_witness :
    elements (Reserve (fun _ => true) 5 (SimpleVector.mk [4, 5] 2 2)).2 = [4, 5] ∧
    GetCapacity (Reserve (fun _ => true) 5 (SimpleVector.mk [4, 5] 2 2)).2 = 5 :=
  have h := Reserve_capacity (fun _ => true) 5 (SimpleVector.mk [4, (5 : Nat)] 2 2) (by decide)
    (Or.inr rfl)
  ⟨h.2.2.1, h.2.2.2.2.1 (by decide)⟩

/-- C8: `At(i)` fails with an out-of-range error if and only if
`i >= GetSize()`, and otherwise returns the element `operator[](i)` returns; so
`At(GetSize())` always fails and `At(GetSize() - 1)` succeeds when the size is
positive. -/
theorem At_checked (v : SimpleVector α) (i : Nat) :
    (At v i = Except.error Exn.out_of_range ↔ i ≥ GetSize v) ∧
    ((∃ e, At v i = Except.error e) ↔ i ≥ GetSize v) ∧
    (i < GetSize v → At v i = Except.ok (subscript v i)) ∧
    At v (GetSize v) = Except.error Exn.out_of_range ∧
    (0 < GetSize v → At v (GetSize v - 1) = Except.ok (subscript v (GetSize v - 1))) := by
  simp only [GetSize, At, subscript]
  refine ⟨?_, ?_, ?_, ?_, ?_⟩
  · by_cases h : i ≥ v.size_
    · simp [h]
    · simp [h]
  · by_cases h : i ≥ v.size_
    · simp [h]
    · simp [h]
  · intro h
    rw [if_neg (by omega)]
  · rw [if_pos (Nat.le_refl _)]
  · intro h
    rw [if_neg (by omega)]

/-- Witness for C8: in `{4, 5, 6}` index 2 is read and index 3 is refused. -/
theorem At_checked_witness :
    At (SimpleVector.mk [4, 5, 6] 3 3) 2 = Except.ok 6 ∧
    At (SimpleVector.mk [4, 5, 6] 3 3) 3 = Except.error Exn.out_of_range :=
  ⟨(At_checked (SimpleVector.mk [4, 5, (6 : Nat)] 3 3) 2).2.2.1 (by decide),
   (At_checked (SimpleVector.mk [4, 5, (6 : Nat)] 3 3) 3).1.mpr (by decide)⟩

/-- C9, evaluated where it fails: on a heap that refuses every request, with
the vector `{4, 5}` of size 2 and capacity 2, each growing call throws
`bad_alloc` and leaves the size and the buffer as they were, but the capacity
already raised to the value it asked for (5, 5, 4, 4, 4); `PushBack` on the
empty vector leaves capacity 1 without any buffer. -/
theorem refused_allocation_raises_capacity :
    Reserve (fun _ => false) 5 (SimpleVector.mk [4, 5] 2 2)
      = (Except.error Exn.bad_alloc, SimpleVector.mk [4, 5] 2 5) ∧
    Resize (fun _ => false) 5 (SimpleVector.mk [4, 5] 2 2)
      = (Except.error Exn.bad_alloc, SimpleVector.mk [4, 5] 2 5) ∧
    PushBack (fun _ => false) 6 (SimpleVector.mk [4, 5] 2 2)
      = (Except.error Exn.bad_alloc, SimpleVector.mk [4, 5] 2 4) ∧
    Insert (fun _ => false) 1 (ValueRef.outside 6) (SimpleVector.mk [4, 5] 2 2)
      = some (Except.error Exn.bad_alloc, SimpleVector.mk [4, 5] 2 4) ∧
    Insert_move (fun _ => false) 1 (ValueRef.outside 6) (SimpleVector.mk [4, 5] 2 2)
      = some (Except.error Exn.bad_alloc, SimpleVector.mk [4, 5] 2 4) ∧
    PushBack (fun _ => false) 6 (empty : SimpleVector Nat)
      = (Except.error Exn.bad_alloc, SimpleVector.mk [] 0 1) ∧
    GetCapacity (Reserve (fun _ => false) 5 (SimpleVector.mk [4, 5] 2 2)).2
      ≠ GetCapacity (SimpleVector.mk [4, 5] 2 2) :=
  ⟨rfl, rfl, rfl, rfl, rfl, rfl, by decide⟩

/-- C10: `a == b` holds if and only if the two vectors have the same size and
`a[i] == b[i]` for every `i < size`; `a != b` is its negation; the capacities
play no role: the outcome depends on the sizes and the logical elements only,
and a vector compares to a copy of it on which `Reserve(n)` was called exactly
as it compares to itself, which is `true` when the element `==` is reflexive. -/
theorem operator_eq_elementwise [BEq α] (a b : SimpleVector α) :
    (operator_eq a b = true ↔
      GetSize a = GetSize b ∧
      ∀ i, i < GetSize a → (subscript a i == subscript b i) = true) ∧
    operator_ne a b = !(operator_eq a b) ∧
    (∀ c d : SimpleVector α, GetSize c = GetSize a → elements c = elements a →
      GetSize d = GetSize b → elements d = elements b →
      operator_eq c d = operator_eq a b) ∧
    (∀ (mem : Nat → Bool) (n : Nat), Inv a → (∀ k, mem k = true) →
      ∃ r, copy_then_Reserve mem n a = Except.ok r ∧
        GetCapacity r = max (GetCapacity a) n ∧
        operator_eq a r = operator_eq a a ∧
        operator_eq r a = operator_eq a a ∧
        ((∀ x : α, (x == x) = true) → operator_eq a r = true ∧ operator_eq r a = true)) := by
  refine ⟨operator_eq_iff a b, rfl, fun c d h1 h2 h3 h4 => operator_eq_congr a b c d h1 h2 h3 h4,
    ?_⟩
  intro mem n ha hm
  obtain ⟨r, hr, hs, he, hc⟩ := copy_then_Reserve_ok mem hm n a ha
  have e1 : operator_eq a r = operator_eq a a := operator_eq_congr a a a r rfl rfl hs he
  have e2 : operator_eq r a = operator_eq a a := operator_eq_congr a a r a hs he rfl rfl
  refine ⟨r, hr, hc, e1, e2, fun hrefl => ?_⟩
  have : operator_eq a a = true := (operator_eq_iff a a).mpr ⟨rfl, fun i _ => hrefl _⟩
  exact ⟨e1.trans this, e2.trans this⟩

/-- Witness for C10: `{1, 2, 3}` with capacity 3 equals `{1, 2, 3}` with
capacity 8. -/
theorem operator_eq_elementwise_witness :
    operator_eq (SimpleVector.mk [1, 2, 3] 3 3)
      (SimpleVector.mk [1, 2, 3, 0, 0, 0, 0, 0] 3 8) = true :=
  (operator_eq_elementwise (SimpleVector.mk [1, 2, (3 : Nat)] 3 3)
    (SimpleVector.mk [1, 2, 3, 0, 0, 0, 0, 0] 3 8)).1.mpr
    ⟨rfl, by decide⟩

/-! ### Ordering lemmas -/

theorem lex_loop_iff [LT α] [DecidableRel (LT.lt : α → α → Prop)] (a b : List α)
    (n1 i j n2 : Nat) :
    lex_loop a b i n1 j n2 = true ↔
      (n1 < n2 ∧ ∀ t, t < n1 →
        ¬ ArrayPtr.get a (i + t) < ArrayPtr.get b (j + t) ∧
        ¬ ArrayPtr.get b (j + t) < ArrayPtr.get a (i + t)) ∨
      (∃ k, k < n1 ∧ k < n2 ∧
        (∀ t, t < k →
          ¬ ArrayPtr.get a (i + t) < ArrayPtr.get b (j + t) ∧
          ¬ ArrayPtr.get b (j + t) < ArrayPtr.get a (i + t)) ∧
        ArrayPtr.get a (i + k) < ArrayPtr.get b (j + k)) := by
  induction n1 generalizing i j n2 with
  | zero =>
    simp only [lex_loop]
    constructor
    · intro h
      left
      refine ⟨?_, fun t ht => absurd ht (Nat.not_lt_zero t)⟩
      have : n2 ≠ 0 := by simpa using h
      omega
    · rintro (⟨h, -⟩ | ⟨k, hk, -⟩)
      · have : n2 ≠ 0 := by omega
        simpa using this
      · exact absurd hk (Nat.not_lt_zero k)
  | succ n1 ih =>
    cases n2 with
    | zero =>
      simp only [lex_loop]
      constructor
      · intro h; cases h
      · rintro (⟨h, -⟩ | ⟨k, -, hk, -⟩)
        · exact absurd h (Nat.not_lt_zero _)
        · exact absurd hk (Nat.not_lt_zero k)
    | succ n2 =>
      simp only [lex_loop]
      by_cases h1 : ArrayPtr.get a i < ArrayPtr.get b j
      · rw [if_pos h1]
        refine ⟨fun _ => Or.inr ⟨0, by omega, by omega,
          fun t ht => absurd ht (Nat.not_lt_zero t), h1⟩, fun _ => rfl⟩
      · rw [if_neg h1]
        by_cases h2 : ArrayPtr.get b j < ArrayPtr.get a i
        · rw [if_pos h2]
          constructor
          · intro h; cases h
          · rintro (⟨-, h⟩ | ⟨k, -, -, hk, hlt⟩)
            · exact absurd h2 (h 0 (by omega)).2
            · cases k with
              | zero => exact absurd hlt h1
              | succ k => exact absurd h2 (hk 0 (by omega)).2
        · rw [if_neg h2, ih]
          constructor
          · rintro (⟨h, ht⟩ | ⟨k, hk1, hk2, hk, hlt⟩)
            · left
              refine ⟨by omega, fun t htl => ?_⟩
              cases t with
              | zero => exact ⟨h1, h2⟩
              | succ t =>
                have := ht t (by omega)
                rwa [Nat.add_assoc, Nat.add_assoc, Nat.add_comm 1 t] at this
            · right
              refine ⟨k + 1, by omega, by omega, fun t htl => ?_, ?_⟩
              · cases t with
                | zero => exact ⟨h1, h2⟩
                | succ t =>
                  have := hk t (by omega)
                  rwa [Nat.add_assoc, Nat.add_assoc, Nat.add_comm 1 t] at this
              · rwa [Nat.add_assoc, Nat.add_assoc, Nat.add_comm 1 k] at hlt
          · rintro (⟨h, ht⟩ | ⟨k, hk1, hk2, hk, hlt⟩)
            · left
              refine ⟨by omega, fun t htl => ?_⟩
              have := ht (t + 1) (by omega)
              rwa [Nat.add_assoc, Nat.add_assoc, Nat.add_comm 1 t]
            · cases k with
              | zero => exact absurd hlt h1
              | succ k =>
                right
                refine ⟨k, by omega, by omega, fun t htl => ?_, ?_⟩
                · have := hk (t + 1) (by omega)
                  rwa [Nat.add_assoc, Nat.add_assoc, Nat.add_comm 1 t]
                · rwa [Nat.add_assoc, Nat.add_assoc, Nat.add_comm 1 k]

theorem operator_lt_iff [LT α] [DecidableRel (LT.lt : α → α → Prop)]
    (a b : SimpleVector α) :
    operator_lt a b = true ↔
      (a.size_ < b.size_ ∧ ∀ t, t < a.size_ →
        ¬ ArrayPtr.get a.data_ t < ArrayPtr.get b.data_ t ∧
        ¬ ArrayPtr.get b.data_ t < ArrayPtr.get a.data_ t) ∨
      (∃ k, k < a.size_ ∧ k < b.size_ ∧
        (∀ t, t < k →
          ¬ ArrayPtr.get a.data_ t < ArrayPtr.get b.data_ t ∧
          ¬ ArrayPtr.get b.data_ t < ArrayPtr.get a.data_ t) ∧
        ArrayPtr.get a.data_ k < ArrayPtr.get b.data_ k) := by
  unfold operator_lt std_lexicographical_compare
  rw [lex_loop_iff]
  simp only [Nat.sub_zero, Nat.zero_add]

theorem operator_lt_congr [LT α] [DecidableRel (LT.lt : α → α → Prop)]
    (a b c d : SimpleVector α) (hs1 : c.size_ = a.size_) (he1 : elements c = elements a)
    (hs2 : d.size_ = b.size_) (he2 : elements d = elements b) :
    operator_lt c d = operator_lt a b := by
  have hg : ∀ t, (t < a.size_ → ArrayPtr.get c.data_ t = ArrayPtr.get a.data_ t) ∧
      (t < b.size_ → ArrayPtr.get d.data_ t = ArrayPtr.get b.data_ t) := fun t =>
    ⟨fun h => get_congr_elements c a hs1 he1 t (by omega),
     fun h => get_congr_elements d b hs2 he2 t (by omega)⟩
  rw [Bool.eq_iff_iff, operator_lt_iff, operator_lt_iff, hs1, hs2]
  constructor
  · rintro (⟨h, ht⟩ | ⟨k, hk1, hk2, hk, hlt⟩)
    · left
      refine ⟨h, fun t htl => ?_⟩
      have := ht t htl
      rwa [(hg t).1 htl, (hg t).2 (by omega)] at this
    · right
      refine ⟨k, hk1, hk2, fun t htl => ?_, ?_⟩
      · have := hk t htl
        rwa [(hg t).1 (by omega), (hg t).2 (by omega)] at this
      · rwa [(hg k).1 hk1, (hg k).2 hk2] at hlt
  · rintro (⟨h, ht⟩ | ⟨k, hk1, hk2, hk, hlt⟩)
    · left
      refine ⟨h, fun t htl => ?_⟩
      rw [(hg t).1 htl, (hg t).2 (by omega)]
      exact ht t htl
    · right
      refine ⟨k, hk1, hk2, fun t htl => ?_, ?_⟩
      · rw [(hg t).1 (by omega), (hg t).2 (by omega)]
        exact hk t htl
      · rwa [(hg k).1 hk1, (hg k).2 hk2]

theorem lex_loop_flip [BEq α] [LT α] [DecidableRel (LT.lt : α → α → Prop)]
    (hirr : ∀ x : α, ¬ x < x) (htrans : ∀ x y z : α, x < y → y < z → x < z)
    (htri : ∀ x y : α, x < y ∨ x = y ∨ y < x) (hbeq : ∀ x y : α, (x == y) = true ↔ x = y)
    (a b : List α) (n1 i j n2 : Nat) :
    lex_loop b a j n2 i n1 =
      (!(lex_loop a b i n1 j n2) && !(decide (n1 = n2) && equal_loop a b i j n1)) := by
  induction n1 generalizing i j n2 with
  | zero =>
    cases n2 with
    | zero => simp [lex_loop, equal_loop]
    | succ n2 => simp [lex_loop]
  | succ n1 ih =>
    cases n2 with
    | zero => simp [lex_loop]
    | succ n2 =>
      simp only [lex_loop, equal_loop]
      have hd : decide (n1 + 1 = n2 + 1) = decide (n1 = n2) := by simp
      rw [hd]
      rcases htri (ArrayPtr.get a i) (ArrayPtr.get b j) with h | h | h
      · have h2 : ¬ ArrayPtr.get b j < ArrayPtr.get a i := fun h3 => hirr _ (htrans _ _ _ h h3)
        rw [if_neg h2, if_pos h, if_pos h]
        rfl
      · have h1 : ¬ ArrayPtr.get a i < ArrayPtr.get b j := by rw [h]; exact hirr _
        have h2 : ¬ ArrayPtr.get b j < ArrayPtr.get a i := by rw [h]; exact hirr _
        have h3 : (ArrayPtr.get a i == ArrayPtr.get b j) = true := (hbeq _ _).mpr h
        rw [if_neg h2, if_neg h1, if_neg h1, if_neg h2, h3, ih]
        rfl
      · have h1 : ¬ ArrayPtr.get a i < ArrayPtr.get b j := fun h3 => hirr _ (htrans _ _ _ h h3)
        have hne : ArrayPtr.get a i ≠ ArrayPtr.get b j := by
          intro he; rw [he] at h; exact hirr _ h
        have h3 : (ArrayPtr.get a i == ArrayPtr.get b j) = false := by
          cases hc : (ArrayPtr.get a i == ArrayPtr.get b j) with
          | false => rfl
          | true => exact absurd ((hbeq _ _).mp hc) hne
        rw [if_pos h, if_neg h1, if_pos h, h3]
        simp

theorem operator_lt_flip [BEq α] [LT α] [DecidableRel (LT.lt : α → α → Prop)]
    (hirr : ∀ x : α, ¬ x < x) (htrans : ∀ x y z : α, x < y → y < z → x < z)
    (htri : ∀ x y : α, x < y ∨ x = y ∨ y < x) (hbeq : ∀ x y : α, (x == y) = true ↔ x = y)
    (a b : SimpleVector α) :
    operator_lt b a = (!(operator_lt a b) && !(operator_eq a b)) := by
  unfold operator_lt std_lexicographical_compare operator_eq std_equal
  rw [lex_loop_flip hirr htrans htri hbeq]
  simp only [Nat.sub_zero]
  by_cases h : a.size_ = b.size_
  · rw [if_neg (by simpa using h)]
    simp [h]
  · rw [if_pos h]
    simp [h]

theorem operator_eq_symm [BEq α] (hbeq : ∀ x y : α, (x == y) = true ↔ x = y)
    (a b : SimpleVector α) : operator_eq b a = operator_eq a b := by
  rw [Bool.eq_iff_iff, operator_eq_iff, operator_eq_iff]
  constructor
  · rintro ⟨h1, h2⟩
    refine ⟨h1.symm, fun i hi => ?_⟩
    exact (hbeq _ _).mpr ((hbeq _ _).mp (h2 i (by omega))).symm
  · rintro ⟨h1, h2⟩
    refine ⟨h1.symm, fun i hi => ?_⟩
    exact (hbeq _ _).mpr ((hbeq _ _).mp (h2 i (by omega))).symm

/-- C11: `a < b` is the lexicographic comparison of the logical element
sequences `[0, size)` under the element type's `<`: it holds if and only if
either `a` is shorter than `b` and no index of `a` tells the two apart, or at
the first index `k` where `a[k] < b[k]` or `b[k] < a[k]` it is `a[k] < b[k]`;
only sizes and logical elements matter.  When elements that `<` does not tell
apart are equal, "no index tells them apart" reads "`a` is a proper initial
segment of `b`".  For an irreflexive `<` every proper initial segment is less
than the longer vector and no vector is less than itself. -/
theorem operator_lt_lexicographic [LT α] [DecidableRel (LT.lt : α → α → Prop)]
    (a b : SimpleVector α) :
    (operator_lt a b = true ↔
      (GetSize a < GetSize b ∧ ∀ t, t < GetSize a →
        ¬ subscript a t < subscript b t ∧ ¬ subscript b t < subscript a t) ∨
      (∃ k, k < GetSize a ∧ k < GetSize b ∧
        (∀ t, t < k → ¬ subscript a t < subscript b t ∧ ¬ subscript b t < subscript a t) ∧
        subscript a k < subscript b k)) ∧
    (∀ c d : SimpleVector α, GetSize c = GetSize a → elements c = elements a →
      GetSize d = GetSize b → elements d = elements b →
      operator_lt c d = operator_lt a b) ∧
    ((∀ x y : α, (¬ x < y ∧ ¬ y < x) ↔ x = y) →
      (operator_lt a b = true ↔
        (GetSize a < GetSize b ∧ ∀ t, t < GetSize a → subscript a t = subscript b t) ∨
        (∃ k, k < GetSize a ∧ k < GetSize b ∧
          (∀ t, t < k → subscript a t = subscript b t) ∧
          subscript a k < subscript b k))) ∧
    ((∀ x : α, ¬ x < x) → GetSize a < GetSize b →
      (∀ t, t < GetSize a → subscript a t = subscript b t) → operator_lt a b = true) ∧
    ((∀ x : α, ¬ x < x) → operator_lt a a = false) := by
  have main := operator_lt_iff a b
  simp only [GetSize, subscript]
  refine ⟨main, fun c d h1 h2 h3 h4 => operator_lt_congr a b c d h1 h2 h3 h4, ?_, ?_, ?_⟩
  · intro htri
    rw [main]
    simp only [htri]
  · intro hirr hlt hpre
    rw [main]
    left
    refine ⟨hlt, fun t ht => ?_⟩
    rw [hpre t ht]
    exact ⟨hirr _, hirr _⟩
  · intro hirr
    cases hc : operator_lt a a with
    | false => rfl
    | true =>
      rcases (operator_lt_iff a a).mp hc with ⟨h, -⟩ | ⟨k, -, -, -, h⟩
      · exact absurd h (Nat.lt_irrefl _)
      · exact absurd h (hirr _)

/-- Witness for C11: `{1, 2} < {1, 2, 3}`, and `{1, 2, 3}` is not less than
itself. -/
theorem operator_lt_lexicographic_witness :
    operator_lt (SimpleVector.mk [1, 2] 2 2) (SimpleVector.mk [1, 2, 3] 3 3) = true ∧
    operator_lt (SimpleVector.mk [1, 2, 3] 3 3) (SimpleVector.mk [1, 2, 3] 3 3) = false :=
  ⟨(operator_lt_lexicographic (SimpleVector.mk [1, (2 : Nat)] 2 2)
      (SimpleVector.mk [1, 2, 3] 3 3)).2.2.2.1 (fun x => Nat.lt_irrefl x) (by decide)
      (by decide),
   (operator_lt_lexicographic (SimpleVector.mk [1, 2, (3 : Nat)] 3 3)
      (SimpleVector.mk [1, 2, 3] 3 3)).2.2.2.2 (fun x => Nat.lt_irrefl x)⟩

/-- C12: over an element type whose `<` is a strict total order (irreflexive,
transitive, any two elements comparable or equal) and whose `==` is equality,
the derived comparisons agree: `(a > b)` iff `(b < a)`, `(a >= b)` iff
`(b <= a)`, `(a <= b)` iff not `(a > b)`, and exactly one of `a < b`, `a == b`,
`a > b` holds. -/
theorem comparisons_consistent [BEq α] [LT α] [DecidableRel (LT.lt : α → α → Prop)]
    (hirr : ∀ x : α, ¬ x < x) (htrans : ∀ x y z : α, x < y → y < z → x < z)
    (htri : ∀ x y : α, x < y ∨ x = y ∨ y < x) (hbeq : ∀ x y : α, (x == y) = true ↔ x = y)
    (a b : SimpleVector α) :
    operator_gt a b = operator_lt b a ∧
    operator_ge a b = operator_le b a ∧
    operator_le a b = !(operator_gt a b) ∧
    ((operator_lt a b = true ∧ operator_eq a b = false ∧ operator_gt a b = false) ∨
     (operator_lt a b = false ∧ operator_eq a b = true ∧ operator_gt a b = false) ∨
     (operator_lt a b = false ∧ operator_eq a b = false ∧ operator_gt a b = true)) := by
  have f1 := operator_lt_flip hirr htrans htri hbeq a b
  have f2 := operator_lt_flip hirr htrans htri hbeq b a
  have f3 := operator_eq_symm hbeq a b
  unfold operator_gt operator_ge operator_le operator_ne
  cases h1 : operator_lt a b <;> cases h2 : operator_eq a b <;>
    cases h3 : operator_lt b a <;> cases h4 : operator_eq b a <;>
    simp [h1, h2, h3, h4] at f1 f2 f3 ⊢

/-- Witness for C12: `{1, 3} > {1, 2, 3}` because `{1, 2, 3} < {1, 3}`. -/
theorem comparisons_consistent_witness :
    operator_gt (SimpleVector.mk [1, 3] 2 2) (SimpleVector.mk [1, 2, 3] 3 3)
      = operator_lt (SimpleVector.mk [1, 2, 3] 3 3) (SimpleVector.mk [1, 3] 2 2) :=
  (comparisons_consistent (fun x => Nat.lt_irrefl x) (fun _ _ _ h1 h2 => Nat.lt_trans h1 h2)
    (fun x y => Nat.lt_trichotomy x y) (fun _ _ => beq_iff_eq)
    (SimpleVector.mk [1, (3 : Nat)] 2 2) (SimpleVector.mk [1, 2, 3] 3 3)).1

/-! ### Reuse of capacity, copies, appending by Insert, growth by doubling -/

theorem PushBack_all_room (mem : Nat → Bool) (xs : List α) (v : SimpleVector α) (hv : Inv v)
    (hk : v.size_ + xs.length ≤ v.capacity_) :
    (PushBack_all mem xs v).1 = Except.ok () ∧
    Inv (PushBack_all mem xs v).2 ∧
    elements (PushBack_all mem xs v).2 = elements v ++ xs ∧
    (PushBack_all mem xs v).2.size_ = v.size_ + xs.length ∧
    (PushBack_all mem xs v).2.capacity_ = v.capacity_ := by
  induction xs generalizing v with
  | nil => exact ⟨rfl, hv, by simp [PushBack_all], rfl, rfl⟩
  | cons x rest ih =>
    rw [List.length_cons] at hk
    have hlt : v.size_ < v.capacity_ := by omega
    have hp := PushBack_spec mem x v hv (Or.inl hlt)
    rw [if_pos hlt] at hp
    rcases hres : PushBack mem x v with ⟨r, v1⟩
    rw [hres] at hp
    obtain ⟨h1, h2, h3, h4, h5⟩ := hp
    simp only at h1 h2 h3 h4 h5
    subst h1
    have := ih v1 h2 (by omega)
    simp only [PushBack_all, hres]
    refine ⟨this.1, this.2.1, ?_, ?_, ?_⟩
    · rw [this.2.2.1, h3]; simp
    · rw [this.2.2.2.1, h4, List.length_cons]; omega
    · rw [this.2.2.2.2, h5]

theorem Insert_end_eq (mem : Nat → Bool) (x : α) (v : SimpleVector α) :
    ∃ o, Insert mem v.size_ (ValueRef.outside x) v = some (o, (PushBack mem x v).2) ∧
      drop_value o = (PushBack mem x v).1 := by
  unfold Insert
  by_cases h0 : v.capacity_ = 0
  · rw [if_pos h0]
    simp only [ValueRef.read]
    rcases hres : PushBack mem x v with ⟨r, v1⟩
    cases r with
    | error e => exact ⟨_, rfl, rfl⟩
    | ok u => exact ⟨_, rfl, rfl⟩
  · rw [if_neg h0]
    unfold PushBack
    rw [if_neg h0]
    by_cases h1 : v.size_ + 1 > v.capacity_
    · simp only [if_pos h1]
      rw [if_neg (by omega)]
      rcases hres : Resize mem (v.capacity_ * 2) v with ⟨r, v1⟩
      cases r with
      | error e => exact ⟨_, rfl, rfl⟩
      | ok u =>
        simp only [ValueRef.read, std_move_backward, Nat.sub_self, backward_loop]
        exact ⟨_, rfl, rfl⟩
    · simp only [if_neg h1]
      rw [if_pos (by omega)]
      simp only [ValueRef.read, std_copy_backward, Nat.sub_self, backward_loop]
      exact ⟨_, rfl, rfl⟩

theorem PushBack_doubling (mem : Nat → Bool) (hm : ∀ n, mem n = true) (xs : List α)
    (v : SimpleVector α) (hv : Inv v)
    (hp : (v.size_ = 0 ∧ v.capacity_ = 0) ∨
      (0 < v.size_ ∧ ∃ k, v.capacity_ = 2 ^ k ∧ 2 ^ k < 2 * v.size_))
    (hN : 0 < v.size_ + xs.length) :
    (PushBack_all mem xs v).1 = Except.ok () ∧
    (PushBack_all mem xs v).2.size_ = v.size_ + xs.length ∧
    (PushBack_all mem xs v).2.size_ ≤ (PushBack_all mem xs v).2.capacity_ ∧
    ∃ k, (PushBack_all mem xs v).2.capacity_ = 2 ^ k ∧
      2 ^ k < 2 * (PushBack_all mem xs v).2.size_ := by
  induction xs generalizing v with
  | nil =>
    rcases hp with ⟨h1, -⟩ | ⟨-, k, h2, h3⟩
    · simp only [List.length_nil] at hN; omega
    · exact ⟨rfl, rfl, hv.1, k, h2, h3⟩
  | cons x rest ih =>
    have hs := PushBack_spec mem x v hv (Or.inr (grants_of_all mem hm _))
    rcases hres : PushBack mem x v with ⟨r, v1⟩
    rw [hres] at hs
    obtain ⟨h1, h2, -, h4, h5⟩ := hs
    simp only at h1 h2 h4 h5
    subst h1
    have hp1 : (v1.size_ = 0 ∧ v1.capacity_ = 0) ∨
        (0 < v1.size_ ∧ ∃ k, v1.capacity_ = 2 ^ k ∧ 2 ^ k < 2 * v1.size_) := by
      right
      refine ⟨by omega, ?_⟩
      rcases hp with ⟨a1, a2⟩ | ⟨a1, k, a2, a3⟩
      · refine ⟨0, ?_, ?_⟩
        · rw [h5, if_neg (by omega), a2]; rfl
        · rw [h4, a1]; decide
      · by_cases hlt : v.size_ < v.capacity_
        · refine ⟨k, ?_, ?_⟩
          · rw [h5, if_pos hlt, a2]
          · rw [h4]; omega
        · have hc : v.capacity_ = v.size_ := by have := hv.1; omega
          have hk1 : 1 ≤ 2 ^ k := Nat.one_le_two_pow
          refine ⟨k + 1, ?_, ?_⟩
          · rw [h5, if_neg hlt, a2, Nat.pow_succ]; omega
          · rw [h4, Nat.pow_succ]; omega
    have := ih v1 h2 hp1 (by omega)
    simp only [PushBack_all, hres]
    refine ⟨this.1, ?_, this.2.2.1, this.2.2.2⟩
    rw [this.2.1, h4, List.length_cons]; omega

theorem two_pow_minimal (k j N : Nat) (h1 : 2 ^ k < 2 * N) (h2 : N ≤ 2 ^ j) :
    2 ^ k ≤ 2 ^ j := by
  have h3 : 2 ^ k < 2 ^ (j + 1) := by rw [Nat.pow_succ]; omega
  have h4 : k < j + 1 := (Nat.pow_lt_pow_iff_right (by decide)).mp h3
  exact Nat.pow_le_pow_right (by decide) (by omega)

/-- C13: `Clear()` sets the size to 0 and leaves the capacity `C`; for
`k ≤ C` values, `Clear()` followed by `PushBack(x_1), ..., PushBack(x_k)`
returns on any heap (no allocation is asked for) with size `k`, elements
`x_1 .. x_k` in order and capacity still exactly `C`. -/
theorem Clear_reuses_capacity (mem : Nat → Bool) (xs : List α) (v : SimpleVector α)
    (hv : Inv v) (hk : xs.length ≤ GetCapacity v) :
    GetSize (Clear v) = 0 ∧
    GetCapacity (Clear v) = GetCapacity v ∧
    (PushBack_all mem xs (Clear v)).1 = Except.ok () ∧
    GetSize (PushBack_all mem xs (Clear v)).2 = xs.length ∧
    elements (PushBack_all mem xs (Clear v)).2 = xs ∧
    GetCapacity (PushBack_all mem xs (Clear v)).2 = GetCapacity v := by
  have hc : Inv (Clear v) := ⟨Nat.zero_le _, hv.2⟩
  have h := PushBack_all_room mem xs (Clear v) hc (by
    show 0 + xs.length ≤ v.capacity_
    rw [Nat.zero_add]; exact hk)
  refine ⟨rfl, rfl, h.1, ?_, ?_, h.2.2.2.2⟩
  · show (PushBack_all mem xs (Clear v)).2.size_ = xs.length
    rw [h.2.2.2.1]; exact Nat.zero_add _
  · rw [h.2.2.1]; rfl

/-- Witness for C13: `{4, 5, 6}` of capacity 4, cleared, takes `7, 8` without
growing, even on a heap that refuses every request. -/
theorem Clear_reuses_capacity_witness :
    elements (PushBack_all (fun _ => false) [7, 8]
      (Clear (SimpleVector.mk [4, 5, 6, 0] 3 4))).2 = [7, 8] ∧
    GetCapacity (PushBack_all (fun _ => false) [7, 8]
      (Clear (SimpleVector.mk [4, 5, 6, 0] 3 4))).2 = 4 :=
  have h := Clear_reuses_capacity (fun _ => false) [7, (8 : Nat)]
    (SimpleVector.mk [4, 5, 6, 0] 3 4) (by decide) (by decide)
  ⟨h.2.2.2.2.1, h.2.2.2.2.2⟩

/-- C14: when the buffer of `capacity` slots is obtained, the copy constructor
yields a vector with the size and elements of `src` and capacity exactly the
capacity of `src`, which compares to `src` as `src` compares to itself (equal,
for a reflexive element `==`); copy assignment `a = src` returns and gives `a`
the size, elements and capacity of `src` whatever `a` held; `src` is taken by
const reference and is not written; assigning a vector to itself changes
nothing. -/
theorem copy_keeps_capacity [BEq α] (mem : Nat → Bool) (src a : SimpleVector α)
    (hs : Inv src) (hm : ArrayPtr.grants mem (GetCapacity src) = true) :
    (∃ c, copy mem src = Except.ok c ∧
      GetSize c = GetSize src ∧ elements c = elements src ∧
      GetCapacity c = GetCapacity src ∧
      operator_eq c src = operator_eq src src ∧
      ((∀ x : α, (x == x) = true) → operator_eq c src = true)) ∧
    (assign_copy mem a src).1 = Except.ok () ∧
    GetSize (assign_copy mem a src).2 = GetSize src ∧
    elements (assign_copy mem a src).2 = elements src ∧
    GetCapacity (assign_copy mem a src).2 = GetCapacity src ∧
    assign_copy_self a = a := by
  have hl := elements_length src hs
  have hc := copy_ok mem src hs hm
  have he : elements (SimpleVector.mk
      (elements src ++ List.replicate (src.capacity_ - src.size_) default)
      src.size_ src.capacity_) = elements src := take_append_replicate _ _ _ _ hl
  have ha : assign_copy mem a src = (Except.ok (), SimpleVector.mk
      (elements src ++ List.replicate (src.capacity_ - src.size_) default)
      src.size_ src.capacity_) := by
    unfold assign_copy
    rw [hc]
    rfl
  have hq : operator_eq (SimpleVector.mk
      (elements src ++ List.replicate (src.capacity_ - src.size_) default)
      src.size_ src.capacity_) src = operator_eq src src :=
    operator_eq_congr src src _ src rfl he rfl rfl
  refine ⟨⟨_, hc, rfl, he, rfl, hq, ?_⟩, ?_, ?_, ?_, ?_, rfl⟩
  · intro hrefl
    rw [hq]
    exact (operator_eq_iff src src).mpr ⟨rfl, fun i _ => hrefl _⟩
  · rw [ha]
  · rw [ha]; rfl
  · rw [ha]; exact he
  · rw [ha]; rfl

/-- Witness for C14: assigning `{4, 5}` of capacity 3 to `{9}` gives capacity
3 and elements `4, 5`. -/
theorem copy_keeps_capacity_witness :
    elements (assign_copy (fun _ => true) (SimpleVector.mk [9] 1 1)
      (SimpleVector.mk [4, 5, 0] 2 3)).2 = [4, 5] ∧
    GetCapacity (assign_copy (fun _ => true) (SimpleVector.mk [9] 1 1)
      (SimpleVector.mk [4, 5, 0] 2 3)).2 = 3 :=
  have h := copy_keeps_capacity (fun _ => true) (SimpleVector.mk [4, 5, (0 : Nat)] 2 3)
    (SimpleVector.mk [9] 1 1) (by decide) rfl
  ⟨h.2.2.2.1, h.2.2.2.2.1⟩

/-- C15: move construction from `src`, and move assignment of `src` to a
distinct vector, give the destination the size, capacity and elements of `src`
and leave `src` with `GetSize() == 0` and `GetCapacity() == 0`; move assignment
of a vector to itself leaves it unchanged. -/
theorem move_transfers (src a : SimpleVector α) :
    ((move_ctor src).1 = src ∧
      GetSize (move_ctor src).1 = GetSize src ∧
      GetCapacity (move_ctor src).1 = GetCapacity src ∧
      elements (move_ctor src).1 = elements src ∧
      GetSize (move_ctor src).2 = 0 ∧ GetCapacity (move_ctor src).2 = 0 ∧
      IsEmpty (move_ctor src).2 = true) ∧
    ((assign_move a src).1 = src ∧
      GetSize (assign_move a src).1 = GetSize src ∧
      GetCapacity (assign_move a src).1 = GetCapacity src ∧
      elements (assign_move a src).1 = elements src ∧
      GetSize (assign_move a src).2 = 0 ∧ GetCapacity (assign_move a src).2 = 0 ∧
      IsEmpty (assign_move a src).2 = true) ∧
    assign_move_self a = a :=
  ⟨⟨rfl, rfl, rfl, rfl, rfl, rfl, rfl⟩, ⟨rfl, rfl, rfl, rfl, rfl, rfl, rfl⟩, rfl⟩

/-- C17: `PopBack()` on an empty vector changes nothing; on a vector of size
`n ≥ 1` with elements `xs` it leaves size `n - 1`, elements `xs[0..n-1)` and
the same capacity. -/
theorem PopBack_safe (v : SimpleVector α) :
    (GetSize v = 0 → PopBack v = v) ∧
    (1 ≤ GetSize v →
      GetSize (PopBack v) = GetSize v - 1 ∧
      elements (PopBack v) = (elements v).take (GetSize v - 1) ∧
      GetCapacity (PopBack v) = GetCapacity v) := by
  simp only [GetSize, GetCapacity]
  refine ⟨fun h => ?_, fun h => ?_⟩
  · unfold PopBack
    rw [if_pos h]
  · have hp : PopBack v = { v with size_ := v.size_ - 1 } := by
      unfold PopBack
      rw [if_neg (by omega)]
    rw [hp]
    refine ⟨rfl, ?_, rfl⟩
    show v.data_.take (v.size_ - 1) = (v.data_.take v.size_).take (v.size_ - 1)
    rw [List.take_take, Nat.min_eq_left (by omega)]

/-- Witness for C17: popping `{4, 5, 6}` leaves `{4, 5}`; popping the empty
vector leaves it as it is. -/
theorem PopBack_safe_witness :
    elements (PopBack (SimpleVector.mk [4, 5, 6] 3 3)) = [4, 5, 6].take 2 ∧
    PopBack (empty : SimpleVector Nat) = empty :=
  ⟨((PopBack_safe (SimpleVector.mk [4, 5, (6 : Nat)] 3 3)).2 (by decide)).2.1,
   (PopBack_safe (empty : SimpleVector Nat)).1 rfl⟩

/-- For a value `x` held outside the vector, `Insert(end(), x)` in both
overloads leaves exactly the state `PushBack(x)` leaves and ends as
`PushBack(x)` ends; when `PushBack(x)` gets its memory both return, `Insert`
with the iterator at the old size, and the size is `+ 1`, the elements are
`xs ++ [x]` and the capacity is 1 from 0, doubled when full, unchanged when
there is room. -/
theorem Insert_end_outside_is_PushBack (mem : Nat → Bool) (x : α) (v : SimpleVector α)
    (hv : Inv v) :
    (∃ o, Insert mem (GetSize v) (ValueRef.outside x) v = some (o, (PushBack mem x v).2) ∧
      Insert_move mem (GetSize v) (ValueRef.outside x) v = some (o, (PushBack mem x v).2) ∧
      drop_value o = (PushBack mem x v).1) ∧
    ((v.size_ < v.capacity_ ∨ ArrayPtr.grants mem (max 1 (v.capacity_ * 2)) = true) →
      (PushBack mem x v).1 = Except.ok () ∧
      Insert mem (GetSize v) (ValueRef.outside x) v
        = some (Except.ok (GetSize v), (PushBack mem x v).2) ∧
      GetSize (PushBack mem x v).2 = GetSize v + 1 ∧
      elements (PushBack mem x v).2 = elements v ++ [x] ∧
      GetCapacity (PushBack mem x v).2 =
        (if GetSize v < GetCapacity v then GetCapacity v
         else if GetCapacity v = 0 then 1 else 2 * GetCapacity v)) := by
  obtain ⟨o, h1, h2⟩ := Insert_end_eq mem x v
  simp only [GetSize, GetCapacity]
  refine ⟨⟨o, h1, h1, h2⟩, fun hm => ?_⟩
  have hp := PushBack_spec mem x v hv hm
  obtain ⟨r, hr, -, -, -, -⟩ := Insert_spec mem v.size_ x v hv (Nat.le_refl _) hm
  rw [h1] at hr
  simp only [Option.some.injEq, Prod.mk.injEq] at hr
  refine ⟨hp.1, by rw [h1, hr.1], hp.2.2.2.1, hp.2.2.1, ?_⟩
  rw [hp.2.2.2.2]
  by_cases hlt : v.size_ < v.capacity_
  · rw [if_pos hlt, if_pos hlt]
  · rw [if_neg hlt, if_neg hlt]
    by_cases h0 : v.capacity_ = 0
    · rw [if_pos h0, h0]; rfl
    · rw [if_neg h0]; omega

/-- C18, evaluated where it fails: on the full vector `{4, 5}` (capacity 2),
`v.PushBack(v[0])` copies the argument first and leaves `{4, 5, 4}` with
capacity 4, while `v.Insert(v.end(), v[0])`, in both overloads, keeps the
reference, calls `Resize(4)`, which frees the buffer the reference points
into, and then reads it in `data_[index] = value`: undefined behaviour, so no
state equal to the one `PushBack` leaves is produced. -/
theorem Insert_end_own_element_reads_freed_buffer :
    Inv (SimpleVector.mk [4, 5] 2 2) ∧
    PushBack (fun _ => true) (subscript (SimpleVector.mk [4, 5] 2 2) 0)
        (SimpleVector.mk [4, 5] 2 2)
      = (Except.ok (), SimpleVector.mk [4, 5, 4, 0] 3 4) ∧
    Resize_reallocates (GetCapacity (SimpleVector.mk [4, 5] 2 2) * 2)
      (SimpleVector.mk [4, 5] 2 2) = true ∧
    Insert (fun _ => true) (GetSize (SimpleVector.mk [4, 5] 2 2)) (ValueRef.slot 0)
        (SimpleVector.mk [4, 5] 2 2) = none ∧
    Insert_move (fun _ => true) (GetSize (SimpleVector.mk [4, 5] 2 2)) (ValueRef.slot 0)
        (SimpleVector.mk [4, 5] 2 2) = none :=
  ⟨by decide, rfl, rfl, rfl, rfl⟩

/-- C19: for `N ≥ 1`, after `N` consecutive `PushBack` calls on a
default-constructed vector (on a heap that serves every request) the capacity
is the smallest power of two that is `≥ N`; hence `N ≤ capacity < 2 * N`. -/
theorem PushBack_capacity_power_of_two (mem : Nat → Bool) (hm : ∀ n, mem n = true)
    (xs : List α) (hN : 1 ≤ xs.length) :
    (PushBack_all mem xs (empty : SimpleVector α)).1 = Except.ok () ∧
    (∃ k, GetCapacity (PushBack_all mem xs (empty : SimpleVector α)).2 = 2 ^ k) ∧
    xs.length ≤ GetCapacity (PushBack_all mem xs (empty : SimpleVector α)).2 ∧
    (∀ j, xs.length ≤ 2 ^ j →
      GetCapacity (PushBack_all mem xs (empty : SimpleVector α)).2 ≤ 2 ^ j) ∧
    GetCapacity (PushBack_all mem xs (empty : SimpleVector α)).2 < 2 * xs.length := by
  have he : Inv (empty : SimpleVector α) := ⟨Nat.le_refl 0, rfl⟩
  have h := PushBack_doubling mem hm xs (empty : SimpleVector α) he (Or.inl ⟨rfl, rfl⟩)
    (by show 0 < 0 + xs.length; omega)
  obtain ⟨h1, h2, h3, k, h4, h5⟩ := h
  have hs : (PushBack_all mem xs (empty : SimpleVector α)).2.size_ = xs.length := by
    rw [h2]; exact Nat.zero_add _
  rw [hs] at h3 h5
  simp only [GetCapacity]
  refine ⟨h1, ⟨k, h4⟩, h3, fun j hj => ?_, ?_⟩
  · rw [h4]; exact two_pow_minimal k j xs.length h5 hj
  · rw [h4]; exact h5

/-- Witness for C19: five pushes give capacity 8. -/
theorem PushBack_capacity_power_of_two_witness :
    GetCapacity (PushBack_all (fun _ => true) [1, 2, 3, 4, 5] (empty : SimpleVector Nat)).2
      ≤ 2 ^ 3 ∧
    5 ≤ GetCapacity (PushBack_all (fun _ => true) [1, 2, 3, 4, 5] (empty : SimpleVector Nat)).2 :=
  have h := PushBack_capacity_power_of_two (fun _ => true) (fun _ => rfl)
    [1, 2, 3, 4, (5 : Nat)] (by decide)
  ⟨h.2.2.2.1 3 (by decide), h.2.2.1⟩

/-- For a value `x` held outside the vector and an index `i ≤ size`, calling
`Erase` on the iterator `Insert(begin() + i, x)` returns (when `Insert` gets
its memory) restores the original size and element sequence, with a capacity
at least the original one; the result compares to the original as the original
compares to itself (equal, for a reflexive element `==`). -/
theorem Insert_outside_then_Erase_restores [BEq α] (mem : Nat → Bool) (i : Nat) (x : α)
    (v : SimpleVector α) (hv : Inv v) (hi : i ≤ GetSize v)
    (hm : v.size_ < v.capacity_ ∨ ArrayPtr.grants mem (max 1 (v.capacity_ * 2)) = true) :
    ∃ it r, Insert_then_Erase mem i (ValueRef.outside x) v = some (Except.ok (it, r)) ∧
      it = i ∧
      GetSize r = GetSize v ∧
      elements r = elements v ∧
      GetCapacity v ≤ GetCapacity r ∧
      operator_eq r v = operator_eq v v ∧
      ((∀ y : α, (y == y) = true) → operator_eq r v = true) := by
  simp only [GetSize, GetCapacity] at hi ⊢
  have hl := elements_length v hv
  obtain ⟨v1, hres, h2, h3, h4, h5⟩ := Insert_spec mem i x v hv hi hm
  have her := Erase_spec i v1 h2 (by omega)
  have hsz : (Erase i v1).2.size_ = v.size_ := by rw [her.2.2.2.1, h4]; omega
  have hel : elements (Erase i v1).2 = elements v := by
    rw [her.2.2.1, h3]
    have hti : ((elements v).take i).length = i := by
      rw [List.length_take, hl]; omega
    rw [List.take_append_eq_append_take, List.take_take, Nat.min_self, hti, Nat.sub_self,
      List.take_zero, List.append_nil, List.drop_append_eq_append_drop, hti]
    rw [List.drop_of_length_le (by rw [hti]; omega)]
    have e2 : i + 1 - i = 1 := by omega
    rw [e2]
    simp
  refine ⟨i, (Erase i v1).2, ?_, rfl, hsz, hel, ?_, ?_, ?_⟩
  · unfold Insert_then_Erase
    rw [hres]
    rfl
  · rw [her.2.2.2.2, h5]
    split_ifs <;> omega
  · exact operator_eq_congr v v _ v hsz hel rfl rfl
  · intro hrefl
    rw [operator_eq_congr v v _ v hsz hel rfl rfl]
    exact (operator_eq_iff v v).mpr ⟨rfl, fun t _ => hrefl _⟩

/-- C20, evaluated where it fails: on the full vector `{4, 5, 6}` (capacity 3),
`v.Erase(v.Insert(v.begin() + 1, v[0]))` passes a reference to slot 0.
`Insert` calls `Resize(6)`, which frees the buffer the reference points into,
and then reads the reference in `data_[index] = value`: undefined behaviour,
so the program has no result and nothing is restored.  With a value held
outside the vector the same program gives back `{4, 5, 6}`. -/
theorem Insert_then_Erase_own_element_reads_freed_buffer :
    Inv (SimpleVector.mk [4, 5, 6] 3 3) ∧
    Resize_reallocates (GetCapacity (SimpleVector.mk [4, 5, 6] 3 3) * 2)
      (SimpleVector.mk [4, 5, 6] 3 3) = true ∧
    Insert (fun _ => true) 1 (ValueRef.slot 0) (SimpleVector.mk [4, 5, 6] 3 3) = none ∧
    Insert_then_Erase (fun _ => true) 1 (ValueRef.slot 0) (SimpleVector.mk [4, 5, 6] 3 3)
      = none ∧
    Insert_then_Erase (fun _ => true) 1 (ValueRef.outside 4) (SimpleVector.mk [4, 5, 6] 3 3)
      = some (Except.ok (1, SimpleVector.mk [4, 5, 6, 6, 0, 0] 3 6)) :=
  ⟨by decide, rfl, rfl, rfl, rfl⟩

end SimpleVector

section ReservationToken

variable {α : Type u} [Inhabited α]

/-- C16: constructing a vector from the reservation token `Reserve(C)` (when the
`C` slots are obtained; nothing is asked of the heap for `C == 0`) yields
`GetSize() == 0`, `IsEmpty() == true` and `GetCapacity() == C`. -/
theorem SimpleVector_of_reservation (mem : Nat → Bool) (C : Nat)
    (hm : ArrayPtr.grants mem C = true) :
    (SimpleVector.of_reserve mem (Reserve C) : Except Exn (SimpleVector α)) =
      Except.ok (SimpleVector.mk (List.replicate C default) 0 C) ∧
    SimpleVector.GetSize (SimpleVector.mk (List.replicate C (default : α)) 0 C) = 0 ∧
    SimpleVector.IsEmpty (SimpleVector.mk (List.replicate C (default : α)) 0 C) = true ∧
    SimpleVector.GetCapacity (SimpleVector.mk (List.replicate C (default : α)) 0 C) = C ∧
    (SimpleVector.of_reserve (fun _ => false) (Reserve 0) : Except Exn (SimpleVector α)) =
      Except.ok (SimpleVector.mk [] 0 0) := by
  refine ⟨?_, rfl, rfl, rfl, rfl⟩
  have he : SimpleVector.Inv (SimpleVector.empty : SimpleVector α) := ⟨Nat.le_refl 0, rfl⟩
  unfold SimpleVector.of_reserve
  by_cases h0 : C = 0
  · subst h0
    rfl
  · have hr := SimpleVector.Reserve_grow mem C (SimpleVector.empty : SimpleVector α) he
      (by show 0 < C; omega) hm
    show (match SimpleVector.Reserve mem C (SimpleVector.empty : SimpleVector α) with
      | (Except.error e, _) => Except.error e
      | (Except.ok _, v) => Except.ok v) = _
    rw [hr]
    rfl

/-- Witness for C16: the token `Reserve(3)` gives an empty vector of capacity 3. -/
theorem SimpleVector_of_reservation_witness :
    (SimpleVector.of_reserve (fun _ => true) (Reserve 3) : Except Exn (SimpleVector Nat)) =
      Except.ok (SimpleVector.mk [0, 0, 0] 0 3) :=
  (SimpleVector_of_reservation (fun _ => true) 3 rfl).1

end ReservationToken
